import Mathlib

/-!
# Conductor core — shallow embedding and verification

This file embeds the collaboration core of the Conductor repository
(`conductor/core/`: `models.py`, `agent.py`, `message_bus.py`,
`secretary.py`, `orchestrator.py`) as executable Lean definitions and
proves properties of the embedded code.

Conventions of the embedding:
* Python `dict`s iterated by insertion order are modelled as association
  lists; Python `set`s are modelled as lists whose only observed
  operation is membership.
* The external Claude CLI execution session is opaque: its event stream
  is a parameter (a list of events, or an oracle function) of the
  functions that drive it.
* Exceptions are explicit: functions that can propagate a Python
  exception return `Except`; a `try/except` in the source becomes a
  `match` on that value.
-/

/-- `AgentStatus` from `models.py` (IDLE/WORKING/WAITING/DONE). -/
inductive AgentStatus where
  | idle
  | working
  | waiting
  | done
deriving DecidableEq, Repr

/-- `Message` dataclass from `models.py`.  The `timestamp` (a
`datetime` in the source) is modelled as its ISO textual form; the
uuid-generated `id` is carried as an opaque string. -/
structure Message where
  id : String := ""
  project_id : String := ""
  from_id : String := ""
  from_name : String := ""
  content : String := ""
  mentions : List String := []
  attachments : List String := []
  timestamp : String := ""
deriving DecidableEq, Repr

/-- Python `c.lower()` per character (ASCII case mapping; CJK
characters are fixed points, as in Python for these inputs). -/
def pyLower (s : String) : String := String.mk (s.toList.map Char.toLower)

/-- Bool test for `needle` being a contiguous sublist of the second
argument. -/
def containsSub (needle : List Char) : List Char → Bool
  | [] => needle.isEmpty
  | c :: rest => needle.isPrefixOf (c :: rest) || containsSub needle rest

/-- Python `kw in s` substring test (used on lowered requirement text and
on message content). -/
def pyIn (kw s : String) : Bool := containsSub kw.toList s.toList

/-! ## Mention extraction (`agent.py`, `Agent._extract_mentions`)

The source runs `re.findall(r'@[\U0001F300-\U0001F9FF\s]*([\w一-鿿]+)', text)`
and then deduplicates the captured tokens preserving first-seen order.
The character class after `@` (emoji block or whitespace) is disjoint
from the capture class (word characters), so the regex engine's
leftmost/greedy semantics reduce to the scanner below: at each `@`,
skip the maximal run of emoji/whitespace, then capture the maximal
nonempty run of word characters; a failed attempt resumes after the
`@`; a successful match resumes after the captured token
(non-overlapping matches). -/

/-- The `[\U0001F300-\U0001F9FF\s]` class: emoji block or whitespace. -/
def isMentionSkipChar (c : Char) : Bool :=
  (0x1F300 ≤ c.val && c.val ≤ 0x1F9FF) || c = ' ' || c = '\t' || c = '\n' || c = '\r' ||
    c.val = 0x0B || c.val = 0x0C

/-- The `[\w一-鿿]` class: word characters (letters, digits,
underscore) or CJK unified ideographs. -/
def isMentionWordChar (c : Char) : Bool :=
  c.isAlphanum || c = '_' || (0x4E00 ≤ c.val && c.val ≤ 0x9FFF)

/-- Worker for the token scanner.  The `fuel` argument only makes the
recursion structural; each step consumes at least one character, so
`fuel = length of the input` (as supplied by `scanMentions`) never runs
out and the `0` branch is unreachable. -/
def scanMentionsGo : Nat → List Char → List (List Char)
  | 0, _ => []
  | _, [] => []
  | fuel + 1, c :: rest =>
    if c = '@' then
      let afterSkip := rest.dropWhile isMentionSkipChar
      let tok := afterSkip.takeWhile isMentionWordChar
      if tok.isEmpty then scanMentionsGo fuel rest
      else tok :: scanMentionsGo fuel (afterSkip.dropWhile isMentionWordChar)
    else scanMentionsGo fuel rest

/-- Token scanner realizing `re.findall` of the mention pattern (see the
section comment): returns the captured tokens in match order, with
multiplicity. -/
def scanMentions (l : List Char) : List (List Char) := scanMentionsGo l.length l

/-- The dedup loop of `_extract_mentions`: `seen` set plus `unique`
output list, keeping the first occurrence of each token. -/
def dedupSeen (seen : List String) : List String → List String
  | [] => []
  | m :: rest => if m ∈ seen then dedupSeen seen rest else m :: dedupSeen (m :: seen) rest

/-- `Agent._extract_mentions` (`agent.py` lines 349-372): regex scan of
the text, then dedup preserving first-seen order. -/
def extract_mentions (text : String) : List String :=
  dedupSeen [] ((scanMentions text.toList).map (fun cs => String.mk cs))

/-- Reference form of first-seen-order deduplication: keep the head,
drop its later duplicates, recurse. -/
def firstOccDedup : List String → List String
  | [] => []
  | x :: xs => x :: firstOccDedup (xs.filter (fun y => decide (y ≠ x)))
termination_by l => l.length
decreasing_by
  simp
  exact Nat.lt_succ_of_le (List.length_filter_le _ _)

theorem firstOccDedup_nil : firstOccDedup [] = [] := by
  rw [firstOccDedup.eq_def]

theorem firstOccDedup_cons (x : String) (xs : List String) :
    firstOccDedup (x :: xs) = x :: firstOccDedup (xs.filter (fun y => decide (y ≠ x))) := by
  rw [firstOccDedup.eq_def]

theorem mem_dedupSeen {x : String} :
    ∀ (seen l : List String), x ∈ dedupSeen seen l → x ∉ seen ∧ x ∈ l := by
  intro seen l
  induction l generalizing seen with
  | nil => simp [dedupSeen]
  | cons m rest ih =>
    by_cases hm : m ∈ seen
    · simp only [dedupSeen, if_pos hm]
      intro h
      have := ih seen h
      exact ⟨this.1, List.mem_cons_of_mem _ this.2⟩
    · simp only [dedupSeen, if_neg hm]
      intro h
      rcases List.mem_cons.1 h with h | h
      · subst h; exact ⟨hm, List.mem_cons_self _ _⟩
      · have := ih (m :: seen) h
        refine ⟨fun hx => this.1 (List.mem_cons_of_mem _ hx), List.mem_cons_of_mem _ this.2⟩

theorem dedupSeen_nodup : ∀ (seen l : List String), (dedupSeen seen l).Nodup := by
  intro seen l
  induction l generalizing seen with
  | nil => simp [dedupSeen]
  | cons m rest ih =>
    by_cases hm : m ∈ seen
    · simpa only [dedupSeen, if_pos hm] using ih seen
    · simp only [dedupSeen, if_neg hm, List.nodup_cons]
      refine ⟨fun h => ?_, ih (m :: seen)⟩
      exact (mem_dedupSeen _ _ h).1 (List.mem_cons_self _ _)

theorem dedupSeen_sublist : ∀ (seen l : List String), List.Sublist (dedupSeen seen l) l := by
  intro seen l
  induction l generalizing seen with
  | nil => simp [dedupSeen]
  | cons m rest ih =>
    by_cases hm : m ∈ seen
    · simp only [dedupSeen, if_pos hm]
      exact (ih seen).cons _
    · simp only [dedupSeen, if_neg hm]
      exact (ih (m :: seen)).cons₂ _

theorem dedupSeen_eq_firstOccDedup_filter :
    ∀ (l seen : List String),
      dedupSeen seen l = firstOccDedup (l.filter (fun x => decide (x ∉ seen))) := by
  intro l
  induction l with
  | nil => intro seen; simp [dedupSeen, firstOccDedup]
  | cons m rest ih =>
    intro seen
    by_cases hm : m ∈ seen
    · rw [List.filter_cons_of_neg (by simpa using hm)]
      simp only [dedupSeen, if_pos hm]
      exact ih seen
    · rw [List.filter_cons_of_pos (by simpa using hm), firstOccDedup_cons]
      simp only [dedupSeen, if_neg hm]
      rw [ih (m :: seen), List.filter_filter]
      congr 2
      apply List.filter_congr
      intro y _
      by_cases hy : y = m
      · subst hy; simp
      · by_cases hs : y ∈ seen <;> simp [hy, hs, List.mem_cons]

theorem dedupSeen_eq_firstOccDedup (l : List String) :
    dedupSeen [] l = firstOccDedup l := by
  rw [dedupSeen_eq_firstOccDedup_filter l []]
  congr 1
  apply List.filter_eq_self.2
  intro y _
  simp

theorem dedupSeen_of_nodup :
    ∀ (l seen : List String), l.Nodup → (∀ x ∈ l, x ∉ seen) → dedupSeen seen l = l := by
  intro l
  induction l with
  | nil => intro seen _ _; simp [dedupSeen]
  | cons m rest ih =>
    intro seen hnd hdisj
    have hm : m ∉ seen := hdisj m (List.mem_cons_self _ _)
    simp only [dedupSeen, if_neg hm]
    congr 1
    apply ih (m :: seen) (List.Nodup.of_cons hnd)
    intro x hx
    simp only [List.mem_cons, not_or]
    exact ⟨fun he => (List.nodup_cons.1 hnd).1 (he ▸ hx), hdisj x (List.mem_cons_of_mem _ hx)⟩

/-- C7: mention extraction is idempotent and order-preserving.
`Agent._extract_mentions` is a pure function of the text (so two runs on
the same text trivially agree); this theorem states the remaining
content of the claim: the result is exactly the first-seen-order
deduplication of the regex match sequence (each token kept once, at the
position of its first match), it has no duplicates, it is a subsequence
of the match sequence, and applying the dedup pass again leaves it
unchanged. -/
theorem extract_mentions_idempotent_first_seen_order (text : String) :
    extract_mentions text =
      firstOccDedup ((scanMentions text.toList).map (fun cs => String.mk cs)) ∧
    (extract_mentions text).Nodup ∧
    List.Sublist (extract_mentions text)
      ((scanMentions text.toList).map (fun cs => String.mk cs)) ∧
    dedupSeen [] (extract_mentions text) = extract_mentions text := by
  refine ⟨dedupSeen_eq_firstOccDedup _, dedupSeen_nodup _ _, dedupSeen_sublist _ _, ?_⟩
  apply dedupSeen_of_nodup
  · exact dedupSeen_nodup _ _
  · intro x _
    simp

/-! ## Message bus (`message_bus.py`)

`publish` runs under `async with self._lock` (an `asyncio.Lock`, which
is not re-entrant) and awaits each matching subscriber callback inline
before releasing the lock.  The model makes the single cooperative
control flow explicit: a callback is a piece of data describing what the
subscriber does when invoked, covering the shapes occurring in (or
relevant to) this repository — the orchestrator's real subscription
callback wraps `agent.handle_message` in `asyncio.create_task`. -/

/-- What a subscriber callback does when invoked. -/
inductive Callback where
  /-- A synchronous callback with no bus interaction. -/
  | noop
  /-- A synchronous callback that schedules an independent task via
  `asyncio.create_task` (the orchestrator's subscription shape); the
  returned `Task` is not a coroutine, so `publish` does not await it. -/
  | createTask
  /-- An async callback that itself awaits `publish` on a further
  message; `publish` awaits the returned coroutine inline. -/
  | awaitPublish (m : Message)
  /-- A synchronous callback that calls `publish_sync` on a further
  message. -/
  | callPublishSync (m : Message)
  /-- A callback that raises; caught by the `except` around the
  callback invocation and delivery continues. -/
  | raisesError
deriving DecidableEq, Repr

/-- `Subscriber` dataclass from `message_bus.py`. -/
structure Subscriber where
  id : String
  callback : Callback
  filter_mentions : Bool := false
deriving DecidableEq, Repr

/-- The state of a `MessageBus`: `workspace` records whether a
workspace path was supplied (persistence enabled); `messages` is the
in-memory log `_messages`; `persisted` the records appended to
`chat.jsonl`.  `invoked` and `scheduled` are ghost instrumentation:
the subscriber ids whose callbacks were invoked, in order, and the
number of tasks created via `asyncio.create_task`. -/
structure BusState where
  workspace : Bool
  subscribers : List Subscriber
  messages : List Message
  persisted : List Message
  invoked : List String := []
  scheduled : Nat := 0
deriving DecidableEq, Repr

/-- `MessageBus.publish_sync` (`message_bus.py` lines 98-102): append to
the in-memory log and persist; nothing else. -/
def publish_sync (st : BusState) (m : Message) : BusState :=
  { st with
    messages := st.messages ++ [m],
    persisted := if st.workspace then st.persisted ++ [m] else st.persisted }

/-- Result of an awaited `publish` call: either it returns, or the
awaiting control flow blocks forever. -/
inductive PubResult where
  | ok (st : BusState)
  | deadlock (st : BusState)
deriving DecidableEq, Repr

def PubResult.isOk : PubResult → Bool
  | .ok _ => true
  | .deadlock _ => false

/-- A `publish` awaited from inside a subscriber callback while the
same control flow already holds `self._lock`: `async with self._lock`
blocks at lock acquisition, `asyncio.Lock` is not re-entrant, and the
only coroutine that could release the lock is the one now blocked, so
the call never proceeds (state unchanged: the re-entrant `publish`
blocks before appending anything). -/
def publishLocked (st : BusState) (_m : Message) : PubResult := .deadlock st

/-- The subscriber-notification loop of `publish` (lines 83-96):
mention-filtered subscribers are skipped unless mentioned; otherwise the
callback is invoked (and awaited if it returned a coroutine), errors
being caught.  No modelled callback mutates the subscriber dict, so
iterating the live dict equals iterating this list. -/
def notifySubscribers (m : Message) : BusState → List Subscriber → PubResult
  | st, [] => .ok st
  | st, sub :: rest =>
    if sub.filter_mentions && !(m.mentions.contains sub.id) then
      notifySubscribers m st rest
    else
      let st1 := { st with invoked := st.invoked ++ [sub.id] }
      match sub.callback with
      | .noop => notifySubscribers m st1 rest
      | .raisesError => notifySubscribers m st1 rest
      | .createTask => notifySubscribers m { st1 with scheduled := st1.scheduled + 1 } rest
      | .callPublishSync m2 => notifySubscribers m (publish_sync st1 m2) rest
      | .awaitPublish m2 =>
        match publishLocked st1 m2 with
        | .deadlock st2 => .deadlock st2
        | .ok st2 => notifySubscribers m st2 rest

/-- `MessageBus.publish` (`message_bus.py` lines 69-96): under the lock,
append the message to the in-memory log, persist it if a workspace is
configured, then notify every matching subscriber. -/
def publish (st : BusState) (m : Message) : PubResult :=
  let st1 := { st with
    messages := st.messages ++ [m],
    persisted := if st.workspace then st.persisted ++ [m] else st.persisted }
  notifySubscribers m st1 st1.subscribers

/-- C9: `publish_sync` only appends the message to the in-memory log
and to the persistent record; it invokes no subscriber callback and
schedules nothing, for every bus state (hence for every registered
subscriber set) and every message (hence every mention list). -/
theorem publish_sync_appends_only_no_callbacks (st : BusState) (m : Message) :
    (publish_sync st m).messages = st.messages ++ [m] ∧
    (publish_sync st m).persisted =
      (if st.workspace then st.persisted ++ [m] else st.persisted) ∧
    (publish_sync st m).invoked = st.invoked ∧
    (publish_sync st m).scheduled = st.scheduled ∧
    (publish_sync st m).subscribers = st.subscribers :=
  ⟨rfl, rfl, rfl, rfl, rfl⟩

/-- A bus with one subscriber whose async callback re-entrantly awaits
`publish` of a second message. -/
def reentrantBus : BusState :=
  { workspace := false,
    subscribers := [{ id := "s", callback := .awaitPublish { content := "inner" } }],
    messages := [],
    persisted := [] }

/-- Counterexample to C3: with a subscriber whose callback awaits a
re-entrant `publish`, the outer `publish` call never completes — it
deadlocks on `self._lock` — and the inner message is never appended to
the log (only the outer one is).  The claim that the outer publish
"still completes … and both the outer and the inner message end up
appended" therefore fails on this bus state. -/
theorem publish_reentrant_deadlocks :
    publish reentrantBus { content := "outer" } =
      PubResult.deadlock
        { reentrantBus with messages := [{ content := "outer" }], invoked := ["s"] } ∧
    (publish reentrantBus { content := "outer" }).isOk = false := by
  constructor
  · rfl
  · rfl

def Callback.isAwaitPublish : Callback → Bool
  | .awaitPublish _ => true
  | _ => false

theorem notifySubscribers_skip (m : Message) (st : BusState) (sub : Subscriber)
    (rest : List Subscriber)
    (h : (sub.filter_mentions && !(m.mentions.contains sub.id)) = true) :
    notifySubscribers m st (sub :: rest) = notifySubscribers m st rest := by
  simp only [notifySubscribers, h, if_true]

theorem notifySubscribers_noop (m : Message) (st : BusState) (sub : Subscriber)
    (rest : List Subscriber)
    (h : (sub.filter_mentions && !(m.mentions.contains sub.id)) = false)
    (hcb : sub.callback = Callback.noop) :
    notifySubscribers m st (sub :: rest) =
      notifySubscribers m { st with invoked := st.invoked ++ [sub.id] } rest := by
  have hp : ¬(sub.filter_mentions = true ∧ sub.id ∉ m.mentions) := by
    rintro ⟨h1, h2⟩
    rw [h1] at h
    simp at h
    exact h2 h
  simp [notifySubscribers, hp, hcb]

theorem notifySubscribers_raises (m : Message) (st : BusState) (sub : Subscriber)
    (rest : List Subscriber)
    (h : (sub.filter_mentions && !(m.mentions.contains sub.id)) = false)
    (hcb : sub.callback = Callback.raisesError) :
    notifySubscribers m st (sub :: rest) =
      notifySubscribers m { st with invoked := st.invoked ++ [sub.id] } rest := by
  have hp : ¬(sub.filter_mentions = true ∧ sub.id ∉ m.mentions) := by
    rintro ⟨h1, h2⟩
    rw [h1] at h
    simp at h
    exact h2 h
  simp [notifySubscribers, hp, hcb]

theorem notifySubscribers_createTask (m : Message) (st : BusState) (sub : Subscriber)
    (rest : List Subscriber)
    (h : (sub.filter_mentions && !(m.mentions.contains sub.id)) = false)
    (hcb : sub.callback = Callback.createTask) :
    notifySubscribers m st (sub :: rest) =
      notifySubscribers m
        { st with invoked := st.invoked ++ [sub.id], scheduled := st.scheduled + 1 } rest := by
  have hp : ¬(sub.filter_mentions = true ∧ sub.id ∉ m.mentions) := by
    rintro ⟨h1, h2⟩
    rw [h1] at h
    simp at h
    exact h2 h
  simp [notifySubscribers, hp, hcb]

theorem notifySubscribers_publishSync (m : Message) (st : BusState) (sub : Subscriber)
    (rest : List Subscriber) (m2 : Message)
    (h : (sub.filter_mentions && !(m.mentions.contains sub.id)) = false)
    (hcb : sub.callback = Callback.callPublishSync m2) :
    notifySubscribers m st (sub :: rest) =
      notifySubscribers m (publish_sync { st with invoked := st.invoked ++ [sub.id] } m2)
        rest := by
  have hp : ¬(sub.filter_mentions = true ∧ sub.id ∉ m.mentions) := by
    rintro ⟨h1, h2⟩
    rw [h1] at h
    simp at h
    exact h2 h
  simp [notifySubscribers, hp, hcb]

theorem notifySubscribers_await (m : Message) (st : BusState) (sub : Subscriber)
    (rest : List Subscriber) (m2 : Message)
    (h : (sub.filter_mentions && !(m.mentions.contains sub.id)) = false)
    (hcb : sub.callback = Callback.awaitPublish m2) :
    notifySubscribers m st (sub :: rest) =
      PubResult.deadlock { st with invoked := st.invoked ++ [sub.id] } := by
  have hp : ¬(sub.filter_mentions = true ∧ sub.id ∉ m.mentions) := by
    rintro ⟨h1, h2⟩
    rw [h1] at h
    simp at h
    exact h2 h
  simp [notifySubscribers, hp, hcb, publishLocked]

theorem notifySubscribers_no_await (m : Message) :
    ∀ (subs : List Subscriber) (st : BusState),
      (∀ sub ∈ subs, sub.callback.isAwaitPublish = false) →
      ∃ st', notifySubscribers m st subs = PubResult.ok st' ∧
        (∃ extra, st'.messages = st.messages ++ extra) ∧
        ∀ sub ∈ subs, ∀ m2, sub.callback = Callback.callPublishSync m2 →
          (sub.filter_mentions = false ∨ sub.id ∈ m.mentions) → m2 ∈ st'.messages := by
  intro subs
  induction subs with
  | nil =>
    intro st _
    exact ⟨st, rfl, ⟨[], by simp⟩, by simp⟩
  | cons sub rest ih =>
    intro st hno
    have hrest : ∀ s ∈ rest, s.callback.isAwaitPublish = false :=
      fun s hs => hno s (List.mem_cons_of_mem _ hs)
    by_cases hskip : (sub.filter_mentions && !(m.mentions.contains sub.id)) = true
    · obtain ⟨st', hok, ⟨extra, hext⟩, hsync⟩ := ih st hrest
      refine ⟨st', ?_, ⟨extra, hext⟩, ?_⟩
      · rw [notifySubscribers_skip m st sub rest hskip]
        exact hok
      · intro s hs m2 hcb hdel
        rcases List.mem_cons.1 hs with h | h
        · subst h
          rcases hdel with hdel | hdel
          · rw [hdel] at hskip; simp at hskip
          · have hcont : m.mentions.contains s.id = true := by simpa using hdel
            rw [hcont] at hskip; simp at hskip
        · exact hsync s h m2 hcb hdel
    · have hskip' : (sub.filter_mentions && !(m.mentions.contains sub.id)) = false := by
        simpa using hskip
      have hsub := hno sub (List.mem_cons_self _ _)
      cases hcb : sub.callback with
      | awaitPublish m2 =>
        rw [hcb] at hsub
        simp [Callback.isAwaitPublish] at hsub
      | noop =>
        obtain ⟨st', hok, ⟨extra, hext⟩, hsync⟩ :=
          ih { st with invoked := st.invoked ++ [sub.id] } hrest
        refine ⟨st', ?_, ⟨extra, hext⟩, ?_⟩
        · rw [notifySubscribers_noop m st sub rest hskip' hcb]
          exact hok
        · intro s hs m2 hcb2 hdel
          rcases List.mem_cons.1 hs with h | h
          · subst h; rw [hcb] at hcb2; cases hcb2
          · exact hsync s h m2 hcb2 hdel
      | raisesError =>
        obtain ⟨st', hok, ⟨extra, hext⟩, hsync⟩ :=
          ih { st with invoked := st.invoked ++ [sub.id] } hrest
        refine ⟨st', ?_, ⟨extra, hext⟩, ?_⟩
        · rw [notifySubscribers_raises m st sub rest hskip' hcb]
          exact hok
        · intro s hs m2 hcb2 hdel
          rcases List.mem_cons.1 hs with h | h
          · subst h; rw [hcb] at hcb2; cases hcb2
          · exact hsync s h m2 hcb2 hdel
      | createTask =>
        obtain ⟨st', hok, ⟨extra, hext⟩, hsync⟩ :=
          ih { st with invoked := st.invoked ++ [sub.id], scheduled := st.scheduled + 1 } hrest
        refine ⟨st', ?_, ⟨extra, hext⟩, ?_⟩
        · rw [notifySubscribers_createTask m st sub rest hskip' hcb]
          exact hok
        · intro s hs m2 hcb2 hdel
          rcases List.mem_cons.1 hs with h | h
          · subst h; rw [hcb] at hcb2; cases hcb2
          · exact hsync s h m2 hcb2 hdel
      | callPublishSync m2 =>
        obtain ⟨st', hok, ⟨extra, hext⟩, hsync⟩ :=
          ih (publish_sync { st with invoked := st.invoked ++ [sub.id] } m2) hrest
        have hmem : m2 ∈ st'.messages := by
          rw [hext]
          simp [publish_sync]
        refine ⟨st', ?_, ⟨m2 :: extra, by rw [hext]; simp [publish_sync]⟩, ?_⟩
        · rw [notifySubscribers_publishSync m st sub rest m2 hskip' hcb]
          exact hok
        · intro s hs m3 hcb2 hdel
          rcases List.mem_cons.1 hs with h | h
          · subst h
            rw [hcb] at hcb2
            cases hcb2
            exact hmem
          · exact hsync s h m3 hcb2 hdel

/-- C3 (amended): when no subscriber callback re-entrantly awaits
`publish`, the outer `publish` completes: it returns `ok`, the outer
message is appended to the in-memory log, and any further message that
a delivered callback hands to `publish_sync` is also in the log when
`publish` returns.  (An async callback that awaits `publish` instead
deadlocks the outer call before the inner message is appended — see
`publish_reentrant_deadlocks`.) -/
theorem publish_completes_without_reentrant_await (st : BusState) (m : Message)
    (hno : ∀ sub ∈ st.subscribers, sub.callback.isAwaitPublish = false) :
    ∃ st', publish st m = PubResult.ok st' ∧
      (∃ extra, st'.messages = st.messages ++ m :: extra) ∧
      ∀ sub ∈ st.subscribers, ∀ m2, sub.callback = Callback.callPublishSync m2 →
        (sub.filter_mentions = false ∨ sub.id ∈ m.mentions) → m2 ∈ st'.messages := by
  obtain ⟨st', hok, ⟨extra, hext⟩, hsync⟩ :=
    notifySubscribers_no_await m st.subscribers
      { st with
        messages := st.messages ++ [m],
        persisted := if st.workspace then st.persisted ++ [m] else st.persisted } hno
  refine ⟨st', hok, ⟨extra, by simpa using hext⟩, hsync⟩

/-- A concrete completing bus: one mention-filtered `createTask`
subscriber (the orchestrator's subscription shape) and one subscriber
relaying messages through `publish_sync`. -/
def okBus : BusState :=
  { workspace := true,
    subscribers :=
      [{ id := "backend", callback := Callback.createTask, filter_mentions := true },
       { id := "api", callback := Callback.callPublishSync { content := "relay" } }],
    messages := [],
    persisted := [] }

def helloMsg : Message := { content := "hello", mentions := ["backend"] }

/-- Witness for `publish_completes_without_reentrant_await` at the
concrete bus `okBus`. -/
theorem publish_completes_without_reentrant_await_witness :
    ∃ st', publish okBus helloMsg = PubResult.ok st' ∧
      (∃ extra, st'.messages = okBus.messages ++ helloMsg :: extra) ∧
      ∀ sub ∈ okBus.subscribers, ∀ m2, sub.callback = Callback.callPublishSync m2 →
        (sub.filter_mentions = false ∨ sub.id ∈ helloMsg.mentions) → m2 ∈ st'.messages :=
  publish_completes_without_reentrant_await okBus helloMsg (by decide)

/-! ## Log replay (`MessageBus.load_messages`, `message_bus.py` lines 178-215)

Each line of `chat.jsonl` is processed as: skip when blank
(`line.strip()` empty); `json.loads(line)`; build a `Message` from the
decoded value, indexing the required fields and `.get`-ing the optional
ones; `datetime.fromisoformat` on the timestamp string; the
`except (json.JSONDecodeError, KeyError)` clause skips the line.  A
`JsonLine` records the outcome of the decode step for one raw line:
blank, undecodable, decodable-but-not-an-object (e.g. the line `[]` —
indexing it with a string raises `TypeError`), or a decoded object with
its fields (`timestamp_iso` records whether `datetime.fromisoformat`
accepts the timestamp string; if not it raises `ValueError`).
`TypeError` and `ValueError` are not named in the `except` clause and
propagate. -/

/-- The decoded JSON object of one persisted line: each `Message` field
as `json.loads` delivers it, `none` when the key is absent. -/
structure RawRecord where
  id : Option String := none
  project_id : Option String := none
  from_id : Option String := none
  from_name : Option String := none
  content : Option String := none
  mentions : Option (List String) := none
  attachments : Option (List String) := none
  timestamp : Option String := none
  timestamp_iso : Bool := true
deriving DecidableEq, Repr

/-- Outcome of `line.strip()` / `json.loads(line)` on one raw line. -/
inductive JsonLine where
  | blank
  | invalid
  | nonObject
  | obj (r : RawRecord)
deriving DecidableEq, Repr

/-- Python exceptions that escape `load_messages`. -/
inductive PyError where
  | typeError
  | valueError
deriving DecidableEq, Repr

/-- Build the `Message(...)` of one decoded object line: any missing
required field raises `KeyError` (caught by the caller's `except`
clause: `.ok none` = line skipped); `mentions`/`attachments` default to
`[]` via `.get`; an unparseable timestamp raises `ValueError`
(uncaught).  `KeyError` fires while the keyword arguments are
evaluated, before `fromisoformat` runs. -/
def recordToMessage (r : RawRecord) : Except PyError (Option Message) :=
  match r.id, r.project_id, r.from_id, r.from_name, r.content, r.timestamp with
  | some i, some pid, some fid, some fname, some c, some ts =>
    if r.timestamp_iso then
      .ok (some
        { id := i, project_id := pid, from_id := fid, from_name := fname, content := c,
          mentions := r.mentions.getD [], attachments := r.attachments.getD [],
          timestamp := ts })
    else .error .valueError
  | _, _, _, _, _, _ => .ok none

/-- `MessageBus.load_messages`: reconstruct the message list from the
persisted lines, filtered by project when one is given.  A `TypeError`
or `ValueError` on any line aborts the whole call. -/
def load_messages (project_id : Option String) : List JsonLine → Except PyError (List Message)
  | [] => .ok []
  | .blank :: rest => load_messages project_id rest
  | .invalid :: rest => load_messages project_id rest
  | .nonObject :: _ => .error .typeError
  | .obj r :: rest =>
    match recordToMessage r with
    | .error e => .error e
    | .ok none => load_messages project_id rest
    | .ok (some msg) =>
      if project_id = none ∨ project_id = some msg.project_id then
        (load_messages project_id rest).map (fun l => msg :: l)
      else load_messages project_id rest

/-- An object line with every required field present but a timestamp
string `datetime.fromisoformat` rejects. -/
def badTimestampRecord : RawRecord :=
  { id := some "1", project_id := some "p", from_id := some "u", from_name := some "n",
    content := some "c", timestamp := some "not-a-date", timestamp_iso := false }

/-- Counterexample to C10: `load_messages` does raise on malformed
input.  A line that is valid JSON but not an object (such as `[]`)
raises `TypeError` from `data["id"]`, and an object line whose
timestamp string is not ISO-parseable raises `ValueError` from
`datetime.fromisoformat` — neither exception is named in the
`except (json.JSONDecodeError, KeyError)` clause.  Under the claim both
files would load to the empty list. -/
theorem load_messages_raises_on_malformed :
    load_messages none [JsonLine.nonObject] = Except.error PyError.typeError ∧
    load_messages none [JsonLine.obj badTimestampRecord] =
      Except.error PyError.valueError := by
  constructor
  · rfl
  · rfl

/-- The spec's reading of one line ("the messages reconstructed from
exactly the well-formed lines"): a line contributes a message exactly
when it decodes to an object carrying every required field (with a
parseable timestamp), optional fields defaulting. -/
def specLineMessage : JsonLine → Option Message
  | .obj r =>
    match r.id, r.project_id, r.from_id, r.from_name, r.content, r.timestamp with
    | some i, some pid, some fid, some fname, some c, some ts =>
      if r.timestamp_iso then
        some
          { id := i, project_id := pid, from_id := fid, from_name := fname, content := c,
            mentions := r.mentions.getD [], attachments := r.attachments.getD [],
            timestamp := ts }
      else none
    | _, _, _, _, _, _ => none
  | _ => none

/-- The spec's expected result of replay: well-formed lines' messages,
filtered by project id when one is given. -/
def specLoadedMessages (project_id : Option String) (lines : List JsonLine) : List Message :=
  (lines.filterMap specLineMessage).filter
    (fun m => decide (project_id = none ∨ project_id = some m.project_id))

/-- A line on which `load_messages` does not raise: anything except a
non-object JSON value or an object line whose present-and-complete
fields lead to `fromisoformat` on an unparseable timestamp. -/
def lineSafe : JsonLine → Bool
  | .nonObject => false
  | .obj r =>
    match r.id, r.project_id, r.from_id, r.from_name, r.content, r.timestamp with
    | some _, some _, some _, some _, some _, some _ => r.timestamp_iso
    | _, _, _, _, _, _ => true
  | _ => true

theorem recordToMessage_safe (r : RawRecord) (hs : lineSafe (JsonLine.obj r) = true) :
    recordToMessage r = Except.ok (specLineMessage (JsonLine.obj r)) := by
  rcases hI : r.id with _ | i <;>
    rcases hP : r.project_id with _ | pid <;>
      rcases hF : r.from_id with _ | fid <;>
        rcases hN : r.from_name with _ | fname <;>
          rcases hC : r.content with _ | c <;>
            rcases hT : r.timestamp with _ | ts <;>
              simp_all [recordToMessage, specLineMessage, lineSafe]

/-- C10 (amended): on input whose lines are all safe — blank, invalid
JSON, or decoded objects that either lack a required field or carry a
parseable timestamp — `load_messages` does not raise and returns
exactly the messages of the well-formed lines, filtered by project id;
a valid-JSON non-object line raises `TypeError` and a complete object
line with an unparseable timestamp raises `ValueError`
(`load_messages_raises_on_malformed`). -/
theorem load_messages_ok_on_safe_lines (project_id : Option String) :
    ∀ lines : List JsonLine, (∀ l ∈ lines, lineSafe l = true) →
      load_messages project_id lines = Except.ok (specLoadedMessages project_id lines) := by
  intro lines
  induction lines with
  | nil => intro _; rfl
  | cons line rest ih =>
    intro hsafe
    have hrest := ih (fun l hl => hsafe l (List.mem_cons_of_mem _ hl))
    cases line with
    | blank => simpa [load_messages, specLoadedMessages] using hrest
    | invalid => simpa [load_messages, specLoadedMessages] using hrest
    | nonObject =>
      have := hsafe JsonLine.nonObject (List.mem_cons_self _ _)
      simp [lineSafe] at this
    | obj r =>
      have hs := hsafe (JsonLine.obj r) (List.mem_cons_self _ _)
      have hrec := recordToMessage_safe r hs
      simp only [load_messages, hrec]
      cases hspec : specLineMessage (JsonLine.obj r) with
      | none =>
        rw [hrest]
        simp [specLoadedMessages, List.filterMap_cons, hspec]
      | some msg =>
        by_cases hmatch : project_id = none ∨ project_id = some msg.project_id
        · simp only [if_pos hmatch, hrest, Except.map]
          simp [specLoadedMessages, List.filterMap_cons, hspec, hmatch]
        · simp only [if_neg hmatch, hrest]
          simp [specLoadedMessages, List.filterMap_cons, hspec, hmatch]

/-- A complete, well-formed persisted record. -/
def goodRecord : RawRecord :=
  { id := some "2", project_id := some "p1", from_id := some "backend",
    from_name := some "后端开发", content := some "done", mentions := some ["pm"],
    timestamp := some "2026-01-01T00:00:00" }

/-- Witness for `load_messages_ok_on_safe_lines` on a concrete file:
a blank line, an undecodable line, a well-formed record and a record
missing required fields. -/
theorem load_messages_ok_on_safe_lines_witness :
    load_messages (some "p1")
        [JsonLine.blank, JsonLine.invalid, JsonLine.obj goodRecord,
          JsonLine.obj { id := some "3" }] =
      Except.ok (specLoadedMessages (some "p1")
        [JsonLine.blank, JsonLine.invalid, JsonLine.obj goodRecord,
          JsonLine.obj { id := some "3" }]) :=
  load_messages_ok_on_safe_lines (some "p1") _ (by decide)

/-! ## Team formation (`secretary.py`)

`Secretary.analyze_requirement` prompts the CLI, picks the last
`result`-type message of the returned stream, and parses its text with
`_parse_team_config`; when the stream holds no `result` message at all
it falls back to `_default_team_config(requirement)`.
`_parse_team_config` extracts a JSON payload (code-block regex, then a
greedy `\x7b.*\x7d` regex, then `json.loads`); `AnalysisOutcome`
records the outcome of that extraction pipeline for the result text:
no JSON object found, found but undecodable, or decoded into the
`TeamData` fields that the parser reads via `.get`. -/

/-- The decoded analysis payload: `roles`, `reason`, `tasks` as read by
`data.get(...)`; `none` when the key is absent.  The `tasks` dict is an
insertion-ordered association list. -/
structure TeamData where
  roles : Option (List String) := none
  reason : Option String := none
  tasks : List (String × String) := []
deriving DecidableEq, Repr

/-- Outcome of the JSON-extraction pipeline of `_parse_team_config` on
a result text. -/
inductive AnalysisOutcome where
  | noJsonObject
  | decodeError
  | parsed (d : TeamData)
deriving DecidableEq, Repr

/-- `TeamConfig` dataclass from `models.py`: `tasks` is an
insertion-ordered association list (role id → initial task). -/
structure TeamConfig where
  roles : List String
  reason : String
  tasks : List (String × String) := []
deriving DecidableEq, Repr

/-- Python `tasks["reviewer"] = v`: replace in place, else append. -/
def dictSet (tasks : List (String × String)) (k v : String) : List (String × String) :=
  if (tasks.map Prod.fst).contains k then
    tasks.map (fun p => if p.1 = k then (k, v) else p)
  else tasks ++ [(k, v)]

/-- The deliverable-producing roles of `Secretary._ensure_reviewer`. -/
def deliverable_roles : List String :=
  ["frontend", "backend", "architect", "writer", "researcher", "analyst"]

/-- `Secretary._ensure_reviewer` (`secretary.py` lines 194-205): when
the role list holds a deliverable-producing role and no reviewer,
append the reviewer role and assign it a default task (mutating the
tasks dict the caller passed in). -/
def ensure_reviewer (roles : List String) (tasks : List (String × String)) :
    List String × List (String × String) :=
  if roles.any (fun role => deliverable_roles.contains role) then
    if !(roles.contains "reviewer") then
      (roles ++ ["reviewer"], dictSet tasks "reviewer" "验收所有产出物，确保可用性和完整性")
    else (roles, tasks)
  else (roles, tasks)

/-- `Secretary._parse_team_config` (`secretary.py` lines 161-192): on a
decoded payload, read `roles` (default `["researcher"]`), `tasks`
(default empty), run the reviewer repair, read `reason` (default text);
when no JSON object was found or decoding failed, return the fixed
researcher fallback. -/
def parse_team_config : AnalysisOutcome → TeamConfig
  | .parsed d =>
    let roles := d.roles.getD ["researcher"]
    let tasks := d.tasks
    let (roles2, tasks2) := ensure_reviewer roles tasks
    { roles := roles2, reason := d.reason.getD "根据需求分析", tasks := tasks2 }
  | _ =>
    { roles := ["researcher"], reason := "无法解析需求，分配默认调研员",
      tasks := [("researcher", "完成用户需求")] }

def dev_keywords : List String := ["应用", "app", "网站", "系统", "平台", "开发", "实现", "做一个"]

def research_keywords : List String := ["调研", "分析", "研究", "了解", "查询"]

def writing_keywords : List String := ["写", "撰写", "文档", "报告"]

/-- `Secretary._default_team_config` (`secretary.py` lines 207-249):
keyword-based fallback used only when the analysis stream contains no
result message. -/
def default_team_config (requirement : String) : TeamConfig :=
  let req_lower := pyLower requirement
  if dev_keywords.any (fun kw => pyIn kw req_lower) then
    { roles := ["pm", "architect", "backend", "frontend", "tester"],
      reason := "这是一个开发任务，需要完整的开发团队",
      tasks :=
        [("pm", "分析需求，撰写 PRD"), ("architect", "设计系统架构和 API"),
          ("backend", "实现后端 API"), ("frontend", "实现前端界面"),
          ("tester", "编写和执行测试")] }
  else if research_keywords.any (fun kw => pyIn kw req_lower) then
    { roles := ["researcher"], reason := "这是一个调研任务",
      tasks := [("researcher", requirement)] }
  else if writing_keywords.any (fun kw => pyIn kw req_lower) then
    { roles := ["writer"], reason := "这是一个写作任务",
      tasks := [("writer", requirement)] }
  else
    { roles := ["researcher"], reason := "默认分配调研员处理",
      tasks := [("researcher", requirement)] }

/-- One message of the CLI stream returned by `execute_and_wait`;
`analysis` is the outcome of `_parse_team_config`'s JSON extraction on
`msg.content.get("result", "")`, meaningful when `type = "result"`. -/
structure CliMessage where
  type : String
  analysis : AnalysisOutcome := .noJsonObject
deriving DecidableEq, Repr

/-- `Secretary.analyze_requirement` (`secretary.py` lines 106-159)
after the CLI call: scan the messages in reverse for the last
`result`-type message and parse it; otherwise fall back to the
keyword-based default team. -/
def analyze_requirement (requirement : String) (messages : List CliMessage) : TeamConfig :=
  match messages.reverse.find? (fun msg => msg.type == "result") with
  | some msg => parse_team_config msg.analysis
  | none => default_team_config requirement

/-- Counterexample to C4: the requirement `做一个网站` contains
development keywords, the analysis stream has a result message whose
text yields no JSON object — and Team Formation produces the fixed
`researcher` fallback of `_parse_team_config`, not the keyword-based
full development team.  The keyword-based fallback only runs when the
stream contains no result message at all. -/
theorem analyze_requirement_unparseable_dev_counterexample :
    dev_keywords.any (fun kw => pyIn kw (pyLower "做一个网站")) = true ∧
    (analyze_requirement "做一个网站" [{ type := "result" }]).roles = ["researcher"] ∧
    (analyze_requirement "做一个网站" [{ type := "result" }]).roles ≠
      ["pm", "architect", "backend", "frontend", "tester"] := by
  refine ⟨by decide, by decide, by decide⟩

/-- C4 (amended): the keyword-based fallback team
`{pm, architect, backend, frontend, tester}` is produced exactly when
the analysis stream contains no result message and the requirement
contains a development keyword; when a result message is present but
its text is unparseable (no JSON object, or JSON that fails to
decode), Team Formation instead produces the fixed `{researcher}`
fallback team, regardless of the requirement's keywords. -/
theorem analyze_requirement_fallback_paths (requirement : String)
    (messages : List CliMessage) :
    ((messages.reverse.find? (fun msg => msg.type == "result")) = none →
      dev_keywords.any (fun kw => pyIn kw (pyLower requirement)) = true →
      analyze_requirement requirement messages =
        { roles := ["pm", "architect", "backend", "frontend", "tester"],
          reason := "这是一个开发任务，需要完整的开发团队",
          tasks :=
            [("pm", "分析需求，撰写 PRD"), ("architect", "设计系统架构和 API"),
              ("backend", "实现后端 API"), ("frontend", "实现前端界面"),
              ("tester", "编写和执行测试")] }) ∧
    (∀ msg, (messages.reverse.find? (fun m => m.type == "result")) = some msg →
      (msg.analysis = AnalysisOutcome.noJsonObject ∨
        msg.analysis = AnalysisOutcome.decodeError) →
      (analyze_requirement requirement messages).roles = ["researcher"]) := by
  constructor
  · intro hfind hdev
    simp only [analyze_requirement, hfind, default_team_config, hdev, if_true]
  · intro msg hfind hbad
    simp only [analyze_requirement, hfind]
    rcases hbad with hbad | hbad <;> rw [hbad] <;> rfl

/-- Witness for `analyze_requirement_fallback_paths`: the no-result
stream on a development requirement gives the full dev team; an
undecodable result message gives the researcher fallback. -/
theorem analyze_requirement_fallback_paths_witness :
    analyze_requirement "做一个网站" [{ type := "assistant" }] =
      { roles := ["pm", "architect", "backend", "frontend", "tester"],
        reason := "这是一个开发任务，需要完整的开发团队",
        tasks :=
          [("pm", "分析需求，撰写 PRD"), ("architect", "设计系统架构和 API"),
            ("backend", "实现后端 API"), ("frontend", "实现前端界面"),
            ("tester", "编写和执行测试")] } ∧
    (analyze_requirement "做一个网站"
        [{ type := "result", analysis := AnalysisOutcome.decodeError }]).roles =
      ["researcher"] := by
  constructor
  · exact (analyze_requirement_fallback_paths "做一个网站" [{ type := "assistant" }]).1
      (by decide) (by decide)
  · exact (analyze_requirement_fallback_paths "做一个网站"
        [{ type := "result", analysis := AnalysisOutcome.decodeError }]).2
      { type := "result", analysis := AnalysisOutcome.decodeError } (by decide) (Or.inr rfl)

/-- A decoded analysis payload whose task mapping names a role that the
role list does not contain. -/
def alienTaskData : TeamData :=
  { roles := some ["pm"], tasks := [("backend", "实现后端")] }

/-- Counterexample to C5: Team Formation does not enforce the claimed
`TeamConfig` invariant.  (i) On the successfully-parsed path the task
mapping may name a role absent from the role list (`backend` task, role
list `[pm]` — nothing repairs task keys).  (ii) On the keyword fallback
path the role list may contain a deliverable-producing role
(`researcher`) without `reviewer` — `_ensure_reviewer` runs only inside
`_parse_team_config`'s success path. -/
theorem team_config_invariant_counterexample :
    "backend" ∈
      ((parse_team_config (AnalysisOutcome.parsed alienTaskData)).tasks.map Prod.fst) ∧
    "backend" ∉ (parse_team_config (AnalysisOutcome.parsed alienTaskData)).roles ∧
    (default_team_config "帮我调研市场").roles = ["researcher"] ∧
    "researcher" ∈ deliverable_roles ∧
    "reviewer" ∉ (default_team_config "帮我调研市场").roles := by
  refine ⟨by decide, by decide, by decide, by decide, by decide⟩

theorem ensure_reviewer_mem (roles : List String) (tasks : List (String × String)) :
    (∃ r ∈ (ensure_reviewer roles tasks).1, r ∈ deliverable_roles) →
    "reviewer" ∈ (ensure_reviewer roles tasks).1 := by
  cases hany : roles.any (fun role => deliverable_roles.contains role) with
  | true =>
    cases hrev : roles.contains "reviewer" with
    | true =>
      simp only [ensure_reviewer, hany, hrev, Bool.not_true, if_true, if_false]
      intro _
      simpa using hrev
    | false =>
      simp only [ensure_reviewer, hany, hrev, Bool.not_false, if_true]
      intro _
      simp
  | false =>
    simp only [ensure_reviewer, hany]
    intro h
    rcases h with ⟨r, hr, hd⟩
    have : roles.any (fun role => deliverable_roles.contains role) = true := by
      refine List.any_eq_true.mpr ⟨r, ?_, ?_⟩
      · simpa using hr
      · simpa using hd
    rw [hany] at this
    cases this

/-- C5 (amended): the reviewer half of the invariant holds on — and
only on — the successfully-parsed path: every `TeamConfig` built from a
decoded analysis payload whose final role list contains a
deliverable-producing role also contains `reviewer`.  Neither half of
the original invariant is enforced on the fallback paths, and the
task-keys half is enforced nowhere
(`team_config_invariant_counterexample`). -/
theorem parsed_team_config_reviewer_guarantee (d : TeamData)
    (h : ∃ r ∈ (parse_team_config (AnalysisOutcome.parsed d)).roles,
      r ∈ deliverable_roles) :
    "reviewer" ∈ (parse_team_config (AnalysisOutcome.parsed d)).roles := by
  have := ensure_reviewer_mem (d.roles.getD ["researcher"]) d.tasks
  simpa [parse_team_config] using this (by simpa [parse_team_config] using h)

/-- Witness for `parsed_team_config_reviewer_guarantee`: payload with a
single `backend` role — the repaired team contains `reviewer`. -/
theorem parsed_team_config_reviewer_guarantee_witness :
    "reviewer" ∈
      (parse_team_config (AnalysisOutcome.parsed { roles := some ["backend"] })).roles :=
  parsed_team_config_reviewer_guarantee { roles := some ["backend"] }
    ⟨"backend", by decide, by decide⟩

/-! ## Agent task execution (`Agent.execute_task`, `agent.py` lines 118-198)

The Claude CLI stream is opaque (spec §6): the model takes the received
event sequence as a parameter.  A `StreamItem.ev` carries the event's
`type`, the text `_extract_progress_text` yields for its content, and
the `content.get("result", "")` payload; `StreamItem.raiseExn` marks
the point at which iterating the stream raises (the `except Exception`
path of the source).  The prompt (role context plus optional task
override) is only sent to the opaque session, so it does not appear in
the model's observable behavior. -/

inductive StreamItem where
  | ev (type : String) (progressText : String) (result : String)
  | raiseExn (e : String)
deriving DecidableEq, Repr

/-- Loop state of `execute_task`'s streaming loop. -/
structure ExecLoop where
  result_text : String := ""
  last_progress_text : String := ""
  message_count : Nat := 0
  progress : List Message := []
deriving DecidableEq, Repr

/-- A throttled progress message (`agent.py` lines 149-155). -/
def progressMessage (pid aid dname text : String) : Message :=
  { project_id := pid, from_id := aid, from_name := dname ++ " 💭",
    content := String.mk (text.toList.take 200) ++ (if 200 < text.length then "..." else ""),
    mentions := [] }

/-- The `async for msg in self.cli.execute(...)` loop of
`execute_task`: count events, emit throttled progress messages (every
5th event, or when the text grew by more than 50 characters), record
the last `result` event's payload; stop with the exception when
iteration raises. -/
def execLoop (pid aid dname : String) : ExecLoop → List StreamItem → ExecLoop × Option String
  | s, [] => (s, none)
  | s, .raiseExn e :: _ => (s, some e)
  | s, .ev type progressText result :: rest =>
    let s1 := { s with message_count := s.message_count + 1 }
    let s2 :=
      if progressText ≠ "" ∧ progressText ≠ s1.last_progress_text then
        if s1.message_count % 5 = 1 ∨
            (50 : Int) < (progressText.length : Int) - (s1.last_progress_text.length : Int) then
          { s1 with
            progress := s1.progress ++ [progressMessage pid aid dname progressText],
            last_progress_text := progressText }
        else s1
      else s1
    let s3 := if type = "result" then { s2 with result_text := result } else s2
    execLoop pid aid dname s3 rest

/-- `Agent.execute_task`: set status to Working, drive the stream, and
return the final `(status, final message, progress messages)`.  The
function is total: the source's `try/except Exception` catches any
exception raised while driving the stream (the `some e` arm), converts
it into an error message, and restores Idle status on both paths. -/
def execute_task (pid aid dname : String) (stream : List StreamItem) :
    AgentStatus × Message × List Message :=
  match execLoop pid aid dname {} stream with
  | (s, none) =>
    let result_text :=
      if s.result_text = "" then "任务执行完成，但未返回具体结果。" else s.result_text
    (AgentStatus.idle,
      { project_id := pid, from_id := aid, from_name := dname, content := result_text,
        mentions := extract_mentions result_text },
      s.progress)
  | (s, some e) =>
    (AgentStatus.idle,
      { project_id := pid, from_id := aid, from_name := dname,
        content := "执行任务时出错: " ++ e },
      s.progress)

/-- C6: `execute_task` never propagates an exception (the model is a
total function whose exception arm is the source's `except` branch):
for every received stream the returned status is Idle — on the success
path and on the internal-failure path alike — and whenever driving the
stream raised, the returned final message is the error message
describing the failure instead of a raise. -/
theorem execute_task_idle_and_error_conversion (pid aid dname : String)
    (stream : List StreamItem) :
    (execute_task pid aid dname stream).1 = AgentStatus.idle ∧
    (∀ e s, execLoop pid aid dname {} stream = (s, some e) →
      (execute_task pid aid dname stream).2.1.content = "执行任务时出错: " ++ e) := by
  constructor
  · rcases h : execLoop pid aid dname {} stream with ⟨s, o⟩
    cases o <;> simp [execute_task, h]
  · intro e s h
    simp [execute_task, h]

/-- Witness for `execute_task_idle_and_error_conversion`: a stream that
yields one assistant event and then raises `boom`. -/
theorem execute_task_idle_and_error_conversion_witness :
    (execute_task "p" "a1" "💻 后端开发"
        [StreamItem.ev "assistant" "reading" "", StreamItem.raiseExn "boom"]).1 =
      AgentStatus.idle ∧
    (execute_task "p" "a1" "💻 后端开发"
        [StreamItem.ev "assistant" "reading" "", StreamItem.raiseExn "boom"]).2.1.content =
      "执行任务时出错: boom" := by
  refine ⟨(execute_task_idle_and_error_conversion "p" "a1" "💻 后端开发" _).1, ?_⟩
  exact (execute_task_idle_and_error_conversion "p" "a1" "💻 后端开发"
      [StreamItem.ev "assistant" "reading" "", StreamItem.raiseExn "boom"]).2 "boom"
    { result_text := "", last_progress_text := "reading", message_count := 1,
      progress := [progressMessage "p" "a1" "💻 后端开发" "reading"] } (by decide)

/-! ## Orchestration engine (`orchestrator.py`)

The mention cascade (`Orchestrator._process_mentions`) and the final
review step (`Orchestrator._trigger_final_review`).  Each awaited agent
run is opaque from the engine's viewpoint (it drives a CLI session);
the model draws its outcome from an oracle `env : Nat → Outcome`
indexed by a dispatch counter carried in the state:

* `Outcome.result content` — the run returned a normal final message;
  its mention list is `_extract_mentions content` (`agent.py`);
* `Outcome.errReturn e` — the run hit the agent's `except` branch and
  returned the error message `执行任务时出错: {e}` with no mentions;
* `Outcome.exc` — the awaited coroutine itself raised, which
  `asyncio.gather(..., return_exceptions=True)` delivers as an
  exception object.

A round's `asyncio.gather` is modelled by running the batch in
sequence: every eligibility check of the round happens before the
gather starts (the selection loop has no await points), the engine
joins all runs before reading any response, and each run restores Idle
status on completion, so the properties proved here do not depend on
the interleaving inside the batch.  The ghost `events` trace records
every dispatch of an agent and every insertion into `_failed_agents`,
in program order. -/

/-- One orchestrated agent: `member.id`, the role id and display name
(`orchestrator.py` resolves mentions against both), and the live
`member.status`. -/
structure AgentM where
  id : String
  roleId : String
  displayName : String
  status : AgentStatus := .idle
deriving DecidableEq, Repr

inductive Outcome where
  | result (content : String)
  | errReturn (e : String)
  | exc
deriving DecidableEq, Repr

/-- Ghost trace events: an agent dispatched (its run awaited), or an
agent id added to `_failed_agents`. -/
inductive OEvent where
  | dispatch (id : String)
  | markFailed (id : String)
deriving DecidableEq, Repr

/-- Orchestrator state over a fixed project: the agents with their live
statuses, `_failed_agents`, `project.messages`, the dispatch counter
feeding the outcome oracle, and the ghost event trace. -/
structure OrchState where
  projectId : String
  agents : List AgentM
  failed : List String := []
  msgs : List Message := []
  ctr : Nat := 0
  events : List OEvent := []
deriving DecidableEq, Repr

/-- `Orchestrator._get_agent_by_role` (lines 245-250): first agent (in
insertion order) whose role id matches. -/
def get_agent_by_role (agents : List AgentM) (role_id : String) : Option AgentM :=
  agents.find? (fun a => a.roleId == role_id)

/-- The Chinese display-name → role-id table of `_process_mentions`
(lines 270-280). -/
def name_to_role : List (String × String) :=
  [("后端开发", "backend"), ("前端开发", "frontend"), ("测试工程师", "tester"),
    ("产品经理", "pm"), ("架构师", "architect"), ("调研员", "researcher"),
    ("分析师", "analyst"), ("撰稿人", "writer"), ("验收员", "reviewer")]

/-- Mention resolution (lines 265-283): by lowered role id, then by the
Chinese-name table on the original mention text. -/
def resolveMention (agents : List AgentM) (mention : String) : Option AgentM :=
  match get_agent_by_role agents (pyLower mention) with
  | some agent => some agent
  | none =>
    match name_to_role.lookup mention with
    | some role_id => get_agent_by_role agents role_id
    | none => none

/-- The eligibility filter of `_process_mentions` (lines 265-288): a
resolved agent is a cascade target unless its status is Working or its
id is in `_failed_agents`; an unresolved mention is dropped.  The
statuses consulted are those of `st` — the selection loop contains no
await point, so no status changes while it runs. -/
def eligibleTargets (st : OrchState) (mentions : List String) : List AgentM :=
  mentions.filterMap (fun mention =>
    match resolveMention st.agents mention with
    | some agent =>
      if agent.status ≠ AgentStatus.working ∧ st.failed.contains agent.id = false then
        some agent
      else none
    | none => none)

/-- `member.status` assignment through `Agent._set_status`. -/
def setAgentStatus (agents : List AgentM) (aid : String) (stat : AgentStatus) : List AgentM :=
  agents.map (fun a => if a.id = aid then { a with status := stat } else a)

/-- The final message of a normally returning run (mentions extracted
from the result text by the agent). -/
def mkAgentMessage (pid : String) (a : AgentM) (content : String) : Message :=
  { project_id := pid, from_id := a.id, from_name := a.displayName, content := content,
    mentions := extract_mentions content }

def errMarker : String := "执行任务时出错"

/-- The message an awaited run contributes, per outcome (`none` when
the coroutine raised: the exception object carries no message). -/
def outcomeMessage (pid : String) (a : AgentM) : Outcome → Option Message
  | .result content => some (mkAgentMessage pid a content)
  | .errReturn e =>
    some { project_id := pid, from_id := a.id, from_name := a.displayName,
           content := errMarker ++ ": " ++ e }
  | .exc => none

/-- One awaited agent run: status Working while the run is in flight,
Idle on completion (`execute_task`/`handle_message` restore Idle on
their success and `except` paths alike), outcome drawn from the
oracle at the current dispatch counter. -/
def runAgent (env : Nat → Outcome) (st : OrchState) (a : AgentM) : OrchState × Outcome :=
  let stW := { st with
    agents := setAgentStatus st.agents a.id AgentStatus.working,
    events := st.events ++ [OEvent.dispatch a.id],
    ctr := st.ctr + 1 }
  let out := env st.ctr
  ({ stW with agents := setAgentStatus stW.agents a.id AgentStatus.idle }, out)

/-- The `asyncio.gather` of one round: run every selected agent,
collect the outcomes in selection order. -/
def runBatch (env : Nat → Outcome) : OrchState → List AgentM → OrchState × List (AgentM × Outcome)
  | st, [] => (st, [])
  | st, a :: rest =>
    let p1 := runAgent env st a
    let p2 := runBatch env p1.1 rest
    (p2.1, (a, p1.2) :: p2.2)

/-- Response processing of `_process_mentions` (lines 303-323): append
each returned message to the project log; a message whose content
contains the error marker, or an exception outcome, adds the agent to
`_failed_agents` and is excluded from the next round's messages. -/
def recordOutcomes : OrchState → List (AgentM × Outcome) → OrchState × List Message
  | st, [] => (st, [])
  | st, (a, out) :: rest =>
    match outcomeMessage st.projectId a out with
    | some msg =>
      let st1 := { st with msgs := st.msgs ++ [msg] }
      if pyIn errMarker msg.content then
        let st2 := { st1 with
          failed := a.id :: st1.failed,
          events := st1.events ++ [OEvent.markFailed a.id] }
        recordOutcomes st2 rest
      else
        let p := recordOutcomes st1 rest
        (p.1, msg :: p.2)
    | none =>
      let st2 := { st with
        failed := a.id :: st.failed,
        events := st.events ++ [OEvent.markFailed a.id] }
      recordOutcomes st2 rest

/-- `Orchestrator._process_mentions` (lines 252-328): resolve and
filter the message's mentions, run the eligible agents, record
failures, then recurse on each newly produced non-error message.  The
`fuel` bound only makes the recursion structural; every property
proved below holds for every fuel value. -/
def process_mentions (env : Nat → Outcome) : Nat → OrchState → Message → OrchState
  | 0, st, _ => st
  | fuel + 1, st, m =>
    if m.mentions.isEmpty then st
    else
      let batch := eligibleTargets st m.mentions
      if batch.isEmpty then st
      else
        let p1 := runBatch env st batch
        let p2 := recordOutcomes p1.1 p1.2
        p2.2.foldl (fun acc msg => process_mentions env fuel acc msg) p2.1

/-- The synthetic coordinator message of `_trigger_final_review`
(lines 400-406). -/
def triggerMessage (pid : String) : Message :=
  { project_id := pid, from_id := "secretary", from_name := "🤖 秘书",
    content := "所有工作已完成，请 @验收员 进行最终验收，检查所有产出物是否可用。",
    mentions := ["验收员"] }

/-- `Orchestrator._trigger_final_review` (lines 379-431): skip when no
reviewer-role agent exists, when the reviewer previously failed, or
when the reviewer already produced a message; otherwise append the
synthetic trigger message, run the reviewer once via `execute_task`,
append its response, and cascade from the response when it carries
mentions.  When the awaited run raises, the exception propagates: the
remaining statements (response append, cascade) are skipped. -/
def trigger_final_review (env : Nat → Outcome) (fuel : Nat) (st : OrchState) : OrchState :=
  match get_agent_by_role st.agents "reviewer" with
  | none => st
  | some reviewer =>
    if st.failed.contains reviewer.id then st
    else if st.msgs.any (fun msg => msg.from_id == reviewer.id) then st
    else
      let st1 := { st with msgs := st.msgs ++ [triggerMessage st.projectId] }
      let p := runAgent env st1 reviewer
      match outcomeMessage p.1.projectId reviewer p.2 with
      | some response =>
        let st3 := { p.1 with msgs := p.1.msgs ++ [response] }
        if response.mentions.isEmpty then st3
        else process_mentions env fuel st3 response
      | none => p.1

/-- A sequence of engine steps over one project: mention-cascade rounds
on arbitrary messages, and final-review injections. -/
inductive StepCall where
  | cascade (m : Message)
  | finalReview
deriving DecidableEq, Repr

def runSteps (env : Nat → Outcome) (fuel : Nat) : OrchState → List StepCall → OrchState
  | st, [] => st
  | st, .cascade m :: rest => runSteps env fuel (process_mentions env fuel st m) rest
  | st, .finalReview :: rest => runSteps env fuel (trigger_final_review env fuel st) rest

/-- Replay the `markFailed` events of a trace onto a failed-set. -/
def applyMarks (failed : List String) : List OEvent → List String
  | [] => failed
  | .dispatch _ :: es => applyMarks failed es
  | .markFailed a :: es => applyMarks (a :: failed) es

/-- The failed-set exclusion property of a trace: reading the events in
program order while accumulating the failed-set, no agent is dispatched
once its id is in the set — neither an id failed from the start nor one
marked failed along the trace. -/
def traceRespectsFailed (failed : List String) : List OEvent → Bool
  | [] => true
  | .dispatch a :: es => !(failed.contains a) && traceRespectsFailed failed es
  | .markFailed a :: es => traceRespectsFailed (a :: failed) es

theorem applyMarks_append (failed : List String) :
    ∀ t1 t2 : List OEvent, applyMarks failed (t1 ++ t2) = applyMarks (applyMarks failed t1) t2 := by
  intro t1
  induction t1 generalizing failed with
  | nil => intro t2; rfl
  | cons e rest ih =>
    intro t2
    cases e with
    | dispatch a => simpa [applyMarks] using ih failed t2
    | markFailed a => simpa [applyMarks] using ih (a :: failed) t2

theorem traceRespectsFailed_append (failed : List String) :
    ∀ t1 t2 : List OEvent,
      traceRespectsFailed failed t1 = true →
      traceRespectsFailed (applyMarks failed t1) t2 = true →
      traceRespectsFailed failed (t1 ++ t2) = true := by
  intro t1
  induction t1 generalizing failed with
  | nil => intro t2 _ h2; simpa [applyMarks] using h2
  | cons e rest ih =>
    intro t2 h1 h2
    cases e with
    | dispatch a =>
      simp only [traceRespectsFailed, Bool.and_eq_true] at h1
      simp only [List.cons_append, traceRespectsFailed, Bool.and_eq_true]
      exact ⟨h1.1, ih failed t2 h1.2 (by simpa [applyMarks] using h2)⟩
    | markFailed a =>
      simp only [traceRespectsFailed] at h1
      simp only [List.cons_append, traceRespectsFailed]
      exact ih (a :: failed) t2 h1 (by simpa [applyMarks] using h2)

theorem traceRespectsFailed_marks (failed : List String) :
    ∀ marks : List OEvent, (∀ e ∈ marks, ∃ x, e = OEvent.markFailed x) →
      traceRespectsFailed failed marks = true := by
  intro marks
  induction marks generalizing failed with
  | nil => intro _; rfl
  | cons e rest ih =>
    intro h
    obtain ⟨x, hx⟩ := h e (List.mem_cons_self _ _)
    subst hx
    simp only [traceRespectsFailed]
    exact ih (x :: failed) (fun e he => h e (List.mem_cons_of_mem _ he))

theorem applyMarks_dispatches (failed : List String) (batch : List AgentM) :
    applyMarks failed (batch.map (fun a => OEvent.dispatch a.id)) = failed := by
  induction batch with
  | nil => rfl
  | cons a rest ih => simpa [applyMarks] using ih

theorem traceRespectsFailed_dispatches (failed : List String) (batch : List AgentM)
    (h : ∀ a ∈ batch, failed.contains a.id = false) :
    traceRespectsFailed failed (batch.map (fun a => OEvent.dispatch a.id)) = true := by
  induction batch with
  | nil => rfl
  | cons a rest ih =>
    simp only [List.map_cons, traceRespectsFailed, Bool.and_eq_true]
    have ha := h a (List.mem_cons_self _ _)
    refine ⟨by simpa using ha, ?_⟩
    exact ih (fun b hb => h b (List.mem_cons_of_mem _ hb))

/-- One engine step's trace contract: the event trace is extended by a
tail that respects the incoming failed-set, and the resulting
failed-set is the incoming one plus exactly the tail's marks. -/
def TraceOK (st st' : OrchState) : Prop :=
  ∃ tail, st'.events = st.events ++ tail ∧
    traceRespectsFailed st.failed tail = true ∧
    st'.failed = applyMarks st.failed tail

theorem traceOK_refl (st : OrchState) : TraceOK st st :=
  ⟨[], by simp, rfl, rfl⟩

theorem traceOK_trans {st st' st'' : OrchState} (h1 : TraceOK st st') (h2 : TraceOK st' st'') :
    TraceOK st st'' := by
  obtain ⟨t1, he1, hr1, hf1⟩ := h1
  obtain ⟨t2, he2, hr2, hf2⟩ := h2
  refine ⟨t1 ++ t2, ?_, ?_, ?_⟩
  · rw [he2, he1, List.append_assoc]
  · exact traceRespectsFailed_append st.failed t1 t2 hr1 (by rw [← hf1]; exact hr2)
  · rw [hf2, hf1, applyMarks_append]

theorem setAgentStatus_ids (agents : List AgentM) (aid : String) (stat : AgentStatus) :
    (setAgentStatus agents aid stat).map AgentM.id = agents.map AgentM.id := by
  induction agents with
  | nil => rfl
  | cons a rest ih =>
    by_cases h : a.id = aid <;> simp [setAgentStatus, h] <;>
      simpa [setAgentStatus] using ih

theorem runBatch_spec (env : Nat → Outcome) :
    ∀ (batch : List AgentM) (st : OrchState),
      (runBatch env st batch).1.events =
        st.events ++ batch.map (fun a => OEvent.dispatch a.id) ∧
      (runBatch env st batch).1.failed = st.failed ∧
      (runBatch env st batch).1.msgs = st.msgs ∧
      (runBatch env st batch).1.projectId = st.projectId ∧
      (runBatch env st batch).1.agents.map AgentM.id = st.agents.map AgentM.id ∧
      (runBatch env st batch).2.map Prod.fst = batch := by
  intro batch
  induction batch with
  | nil => intro st; exact ⟨by simp [runBatch], rfl, rfl, rfl, rfl, rfl⟩
  | cons a rest ih =>
    intro st
    obtain ⟨he, hf, hm, hp, ha, ho⟩ := ih (runAgent env st a).1
    refine ⟨?_, ?_, ?_, ?_, ?_, ?_⟩
    · rw [show (runBatch env st (a :: rest)).1 = (runBatch env (runAgent env st a).1 rest).1
        from rfl, he]
      simp [runAgent, List.append_assoc]
    · rw [show (runBatch env st (a :: rest)).1 = (runBatch env (runAgent env st a).1 rest).1
        from rfl, hf]
      rfl
    · rw [show (runBatch env st (a :: rest)).1 = (runBatch env (runAgent env st a).1 rest).1
        from rfl, hm]
      rfl
    · rw [show (runBatch env st (a :: rest)).1 = (runBatch env (runAgent env st a).1 rest).1
        from rfl, hp]
      rfl
    · rw [show (runBatch env st (a :: rest)).1 = (runBatch env (runAgent env st a).1 rest).1
        from rfl, ha]
      simp [runAgent, setAgentStatus_ids]
    · rw [show (runBatch env st (a :: rest)).2 =
        (a, (runAgent env st a).2) :: (runBatch env (runAgent env st a).1 rest).2 from rfl]
      simp [ho]

theorem outcomeMessage_from_id (pid : String) (a : AgentM) (out : Outcome) (msg : Message)
    (h : outcomeMessage pid a out = some msg) : msg.from_id = a.id := by
  cases out with
  | result content => cases h; rfl
  | errReturn e => cases h; rfl
  | exc => cases h

theorem recordOutcomes_spec :
    ∀ (pairs : List (AgentM × Outcome)) (st : OrchState),
      ∃ marks mtail,
        (recordOutcomes st pairs).1.events = st.events ++ marks ∧
        (∀ e ∈ marks, ∃ x, e = OEvent.markFailed x) ∧
        (recordOutcomes st pairs).1.failed = applyMarks st.failed marks ∧
        (recordOutcomes st pairs).1.projectId = st.projectId ∧
        (recordOutcomes st pairs).1.agents = st.agents ∧
        (recordOutcomes st pairs).1.msgs = st.msgs ++ mtail ∧
        (∀ x ∈ mtail, x.from_id ∈ pairs.map (fun p => p.1.id)) := by
  intro pairs
  induction pairs with
  | nil =>
    intro st
    exact ⟨[], [], by simp [recordOutcomes], by simp, rfl, rfl, rfl, by simp [recordOutcomes], by simp⟩
  | cons pair rest ih =>
    intro st
    obtain ⟨a, out⟩ := pair
    cases hcase : outcomeMessage st.projectId a out with
    | some msg =>
      have hfrom := outcomeMessage_from_id st.projectId a out msg hcase
      by_cases herr : pyIn errMarker msg.content = true
      · obtain ⟨marks, mtail, he, hmk, hf, hp, ha, hm, hfrom'⟩ :=
          ih { st with
            msgs := st.msgs ++ [msg],
            failed := a.id :: st.failed,
            events := st.events ++ [OEvent.markFailed a.id] }
        refine ⟨OEvent.markFailed a.id :: marks, msg :: mtail, ?_, ?_, ?_, ?_, ?_, ?_, ?_⟩
        · rw [show recordOutcomes st ((a, out) :: rest) =
            recordOutcomes { st with
              msgs := st.msgs ++ [msg],
              failed := a.id :: st.failed,
              events := st.events ++ [OEvent.markFailed a.id] } rest by
              simp [recordOutcomes, hcase, herr]]
          rw [he]
          simp
        · intro e he'
          rcases List.mem_cons.1 he' with h | h
          · exact ⟨a.id, h⟩
          · exact hmk e h
        · rw [show recordOutcomes st ((a, out) :: rest) =
            recordOutcomes { st with
              msgs := st.msgs ++ [msg],
              failed := a.id :: st.failed,
              events := st.events ++ [OEvent.markFailed a.id] } rest by
              simp [recordOutcomes, hcase, herr]]
          rw [hf]
          rfl
        · rw [show recordOutcomes st ((a, out) :: rest) =
            recordOutcomes { st with
              msgs := st.msgs ++ [msg],
              failed := a.id :: st.failed,
              events := st.events ++ [OEvent.markFailed a.id] } rest by
              simp [recordOutcomes, hcase, herr]]
          exact hp
        · rw [show recordOutcomes st ((a, out) :: rest) =
            recordOutcomes { st with
              msgs := st.msgs ++ [msg],
              failed := a.id :: st.failed,
              events := st.events ++ [OEvent.markFailed a.id] } rest by
              simp [recordOutcomes, hcase, herr]]
          exact ha
        · rw [show recordOutcomes st ((a, out) :: rest) =
            recordOutcomes { st with
              msgs := st.msgs ++ [msg],
              failed := a.id :: st.failed,
              events := st.events ++ [OEvent.markFailed a.id] } rest by
              simp [recordOutcomes, hcase, herr]]
          rw [hm]
          simp
        · intro x hx
          rcases List.mem_cons.1 hx with h | h
          · subst h; simp [hfrom]
          · simpa using Or.inr (by simpa using hfrom' x h)
      · have herr' : pyIn errMarker msg.content = false := by simpa using herr
        obtain ⟨marks, mtail, he, hmk, hf, hp, ha, hm, hfrom'⟩ :=
          ih { st with msgs := st.msgs ++ [msg] }
        refine ⟨marks, msg :: mtail, ?_, hmk, ?_, ?_, ?_, ?_, ?_⟩
        · rw [show (recordOutcomes st ((a, out) :: rest)).1 =
            (recordOutcomes { st with msgs := st.msgs ++ [msg] } rest).1 by
              simp [recordOutcomes, hcase, herr']]
          exact he
        · rw [show (recordOutcomes st ((a, out) :: rest)).1 =
            (recordOutcomes { st with msgs := st.msgs ++ [msg] } rest).1 by
              simp [recordOutcomes, hcase, herr']]
          exact hf
        · rw [show (recordOutcomes st ((a, out) :: rest)).1 =
            (recordOutcomes { st with msgs := st.msgs ++ [msg] } rest).1 by
              simp [recordOutcomes, hcase, herr']]
          exact hp
        · rw [show (recordOutcomes st ((a, out) :: rest)).1 =
            (recordOutcomes { st with msgs := st.msgs ++ [msg] } rest).1 by
              simp [recordOutcomes, hcase, herr']]
          exact ha
        · rw [show (recordOutcomes st ((a, out) :: rest)).1 =
            (recordOutcomes { st with msgs := st.msgs ++ [msg] } rest).1 by
              simp [recordOutcomes, hcase, herr']]
          rw [hm]
          simp
        · intro x hx
          rcases List.mem_cons.1 hx with h | h
          · subst h; simp [hfrom]
          · simpa using Or.inr (by simpa using hfrom' x h)
    | none =>
      obtain ⟨marks, mtail, he, hmk, hf, hp, ha, hm, hfrom'⟩ :=
        ih { st with
          failed := a.id :: st.failed,
          events := st.events ++ [OEvent.markFailed a.id] }
      refine ⟨OEvent.markFailed a.id :: marks, mtail, ?_, ?_, ?_, ?_, ?_, ?_, ?_⟩
      · rw [show recordOutcomes st ((a, out) :: rest) =
          recordOutcomes { st with
            failed := a.id :: st.failed,
            events := st.events ++ [OEvent.markFailed a.id] } rest by
            simp [recordOutcomes, hcase]]
        rw [he]
        simp
      · intro e he'
        rcases List.mem_cons.1 he' with h | h
        · exact ⟨a.id, h⟩
        · exact hmk e h
      · rw [show recordOutcomes st ((a, out) :: rest) =
          recordOutcomes { st with
            failed := a.id :: st.failed,
            events := st.events ++ [OEvent.markFailed a.id] } rest by
            simp [recordOutcomes, hcase]]
        rw [hf]
        rfl
      · rw [show recordOutcomes st ((a, out) :: rest) =
          recordOutcomes { st with
            failed := a.id :: st.failed,
            events := st.events ++ [OEvent.markFailed a.id] } rest by
            simp [recordOutcomes, hcase]]
        exact hp
      · rw [show recordOutcomes st ((a, out) :: rest) =
          recordOutcomes { st with
            failed := a.id :: st.failed,
            events := st.events ++ [OEvent.markFailed a.id] } rest by
            simp [recordOutcomes, hcase]]
        exact ha
      · rw [show recordOutcomes st ((a, out) :: rest) =
          recordOutcomes { st with
            failed := a.id :: st.failed,
            events := st.events ++ [OEvent.markFailed a.id] } rest by
            simp [recordOutcomes, hcase]]
        exact hm
      · intro x hx
        simpa using Or.inr (by simpa using hfrom' x hx)

theorem get_agent_by_role_mem {agents : List AgentM} {role_id : String} {a : AgentM}
    (h : get_agent_by_role agents role_id = some a) : a ∈ agents :=
  List.mem_of_find?_eq_some h

theorem resolveMention_mem {agents : List AgentM} {mention : String} {a : AgentM}
    (h : resolveMention agents mention = some a) : a ∈ agents := by
  unfold resolveMention at h
  cases h1 : get_agent_by_role agents (pyLower mention) with
  | some agent =>
    rw [h1] at h
    cases h
    exact get_agent_by_role_mem h1
  | none =>
    rw [h1] at h
    cases h2 : name_to_role.lookup mention with
    | none => rw [h2] at h; cases h
    | some role_id =>
      rw [h2] at h
      exact get_agent_by_role_mem h

theorem eligibleTargets_spec (st : OrchState) (mentions : List String) (a : AgentM)
    (h : a ∈ eligibleTargets st mentions) :
    a.status ≠ AgentStatus.working ∧ st.failed.contains a.id = false ∧ a ∈ st.agents := by
  unfold eligibleTargets at h
  obtain ⟨mention, hmention, hres⟩ := List.mem_filterMap.1 h
  cases hr : resolveMention st.agents mention with
  | none => rw [hr] at hres; cases hres
  | some agent =>
    rw [hr] at hres
    have hres' : (if agent.status ≠ AgentStatus.working ∧
        st.failed.contains agent.id = false then some agent else none) = some a := hres
    by_cases hc : agent.status ≠ AgentStatus.working ∧ st.failed.contains agent.id = false
    · rw [if_pos hc] at hres'
      cases hres'
      exact ⟨hc.1, hc.2, resolveMention_mem hr⟩
    · rw [if_neg hc] at hres'
      cases hres'

/-- One cascade call's contract: the trace contract plus: project id
preserved, the agent id set preserved, and every appended project
message carries the id of one of the orchestrated agents as sender. -/
def CascadeOK (st st' : OrchState) : Prop :=
  TraceOK st st' ∧
  st'.projectId = st.projectId ∧
  st'.agents.map AgentM.id = st.agents.map AgentM.id ∧
  ∃ mtail, st'.msgs = st.msgs ++ mtail ∧ ∀ x ∈ mtail, x.from_id ∈ st.agents.map AgentM.id

theorem cascadeOK_refl (st : OrchState) : CascadeOK st st :=
  ⟨traceOK_refl st, rfl, rfl, ⟨[], by simp, by simp⟩⟩

theorem cascadeOK_trans {st st' st'' : OrchState} (h1 : CascadeOK st st')
    (h2 : CascadeOK st' st'') : CascadeOK st st'' := by
  obtain ⟨ht1, hp1, ha1, t1, hm1, hfrom1⟩ := h1
  obtain ⟨ht2, hp2, ha2, t2, hm2, hfrom2⟩ := h2
  refine ⟨traceOK_trans ht1 ht2, hp2.trans hp1, ha2.trans ha1, t1 ++ t2, ?_, ?_⟩
  · rw [hm2, hm1, List.append_assoc]
  · intro x hx
    rcases List.mem_append.1 hx with h | h
    · exact hfrom1 x h
    · have := hfrom2 x h
      rwa [ha1] at this

theorem process_mentions_ok (env : Nat → Outcome) :
    ∀ (fuel : Nat) (st : OrchState) (m : Message),
      CascadeOK st (process_mentions env fuel st m) := by
  intro fuel
  induction fuel with
  | zero => intro st m; exact cascadeOK_refl st
  | succ fuel ih =>
    intro st m
    by_cases hm : m.mentions.isEmpty = true
    · rw [show process_mentions env (fuel + 1) st m = st by
        simp [process_mentions, hm]]
      exact cascadeOK_refl st
    · have hm' : m.mentions.isEmpty = false := by simpa using hm
      by_cases hb : (eligibleTargets st m.mentions).isEmpty = true
      · rw [show process_mentions env (fuel + 1) st m = st by
          simp [process_mentions, hm', hb]]
        exact cascadeOK_refl st
      · have hb' : (eligibleTargets st m.mentions).isEmpty = false := by simpa using hb
        have hstep : process_mentions env (fuel + 1) st m =
            (recordOutcomes (runBatch env st (eligibleTargets st m.mentions)).1
                (runBatch env st (eligibleTargets st m.mentions)).2).2.foldl
              (fun acc msg => process_mentions env fuel acc msg)
              (recordOutcomes (runBatch env st (eligibleTargets st m.mentions)).1
                (runBatch env st (eligibleTargets st m.mentions)).2).1 := by
          simp [process_mentions, hm', hb']
        obtain ⟨hbe, hbf, hbm, hbp, hba, hbo⟩ :=
          runBatch_spec env (eligibleTargets st m.mentions) st
        obtain ⟨marks, mtail, hre, hrmk, hrf, hrp, hra, hrm, hrfrom⟩ :=
          recordOutcomes_spec (runBatch env st (eligibleTargets st m.mentions)).2
            (runBatch env st (eligibleTargets st m.mentions)).1
        have hmid : CascadeOK st
            (recordOutcomes (runBatch env st (eligibleTargets st m.mentions)).1
              (runBatch env st (eligibleTargets st m.mentions)).2).1 := by
          have hdispOK : ∀ a ∈ eligibleTargets st m.mentions,
              st.failed.contains a.id = false :=
            fun a ha => (eligibleTargets_spec st m.mentions a ha).2.1
          refine ⟨⟨(eligibleTargets st m.mentions).map (fun a => OEvent.dispatch a.id)
              ++ marks, ?_, ?_, ?_⟩, ?_, ?_, ?_⟩
          · rw [hre, hbe, List.append_assoc]
          · refine traceRespectsFailed_append _ _ _
              (traceRespectsFailed_dispatches _ _ hdispOK) ?_
            rw [applyMarks_dispatches]
            exact traceRespectsFailed_marks _ marks hrmk
          · rw [hrf, hbf, applyMarks_append, applyMarks_dispatches]
          · rw [hrp, hbp]
          · rw [hra, hba]
          · refine ⟨mtail, by rw [hrm, hbm], ?_⟩
            intro x hx
            have hx1 := hrfrom x hx
            have heq : ((runBatch env st (eligibleTargets st m.mentions)).2.map
                (fun p => p.1.id)) =
                (eligibleTargets st m.mentions).map AgentM.id := by
              conv_rhs => rw [← hbo]
              rw [List.map_map]
              rfl
            rw [heq] at hx1
            obtain ⟨a, ha, haid⟩ := List.mem_map.1 hx1
            have hmem : a ∈ st.agents := (eligibleTargets_spec st m.mentions a ha).2.2
            exact haid ▸ List.mem_map_of_mem AgentM.id hmem
        have hfold : ∀ (msgs : List Message) (acc : OrchState), CascadeOK st acc →
            CascadeOK st (msgs.foldl (fun acc msg => process_mentions env fuel acc msg) acc) := by
          intro msgs
          induction msgs with
          | nil => intro acc h; simpa using h
          | cons msg rest ihm =>
            intro acc h
            exact ihm _ (cascadeOK_trans h (ih acc msg))
        rw [hstep]
        exact hfold _ _ hmid

/-- The state right after the final-review step has appended the
synthetic trigger message and awaited the reviewer's run. -/
def reviewRunState (st : OrchState) (reviewer : AgentM) : OrchState :=
  { st with
    msgs := st.msgs ++ [triggerMessage st.projectId],
    agents := setAgentStatus (setAgentStatus st.agents reviewer.id AgentStatus.working)
      reviewer.id AgentStatus.idle,
    events := st.events ++ [OEvent.dispatch reviewer.id],
    ctr := st.ctr + 1 }

theorem tfr_none (env : Nat → Outcome) (fuel : Nat) (st : OrchState)
    (hr : get_agent_by_role st.agents "reviewer" = none) :
    trigger_final_review env fuel st = st := by
  simp [trigger_final_review, hr]

theorem tfr_failed (env : Nat → Outcome) (fuel : Nat) (st : OrchState) (reviewer : AgentM)
    (hr : get_agent_by_role st.agents "reviewer" = some reviewer)
    (hfail : st.failed.contains reviewer.id = true) :
    trigger_final_review env fuel st = st := by
  have hf : reviewer.id ∈ st.failed := by simpa using hfail
  simp [trigger_final_review, hr, hf]

theorem tfr_already (env : Nat → Outcome) (fuel : Nat) (st : OrchState) (reviewer : AgentM)
    (hr : get_agent_by_role st.agents "reviewer" = some reviewer)
    (hfail : st.failed.contains reviewer.id = false)
    (hany : st.msgs.any (fun msg => msg.from_id == reviewer.id) = true) :
    trigger_final_review env fuel st = st := by
  have hf : reviewer.id ∉ st.failed := by simpa using hfail
  simp [trigger_final_review, hr, hf, hany]

theorem tfr_result (env : Nat → Outcome) (fuel : Nat) (st : OrchState) (reviewer : AgentM)
    (c : String)
    (hr : get_agent_by_role st.agents "reviewer" = some reviewer)
    (hfail : st.failed.contains reviewer.id = false)
    (hany : st.msgs.any (fun msg => msg.from_id == reviewer.id) = false)
    (henv : env st.ctr = Outcome.result c) :
    trigger_final_review env fuel st =
      if (extract_mentions c).isEmpty then
        { reviewRunState st reviewer with
          msgs := (reviewRunState st reviewer).msgs
            ++ [mkAgentMessage st.projectId reviewer c] }
      else
        process_mentions env fuel
          { reviewRunState st reviewer with
            msgs := (reviewRunState st reviewer).msgs
              ++ [mkAgentMessage st.projectId reviewer c] }
          (mkAgentMessage st.projectId reviewer c) := by
  have hf : reviewer.id ∉ st.failed := by simpa using hfail
  simp [trigger_final_review, hr, hf, hany, runAgent, henv, outcomeMessage,
    reviewRunState, mkAgentMessage]

/-- The error message `execute_task` returns when the reviewer's run
hits its `except` branch. -/
def reviewerErrMessage (pid : String) (reviewer : AgentM) (e : String) : Message :=
  { project_id := pid, from_id := reviewer.id, from_name := reviewer.displayName,
    content := errMarker ++ ": " ++ e }

theorem tfr_errReturn (env : Nat → Outcome) (fuel : Nat) (st : OrchState) (reviewer : AgentM)
    (e : String)
    (hr : get_agent_by_role st.agents "reviewer" = some reviewer)
    (hfail : st.failed.contains reviewer.id = false)
    (hany : st.msgs.any (fun msg => msg.from_id == reviewer.id) = false)
    (henv : env st.ctr = Outcome.errReturn e) :
    trigger_final_review env fuel st =
      { reviewRunState st reviewer with
        msgs := (reviewRunState st reviewer).msgs ++
          [reviewerErrMessage st.projectId reviewer e] } := by
  have hf : reviewer.id ∉ st.failed := by simpa using hfail
  simp [trigger_final_review, hr, hf, hany, runAgent, henv, outcomeMessage,
    reviewRunState, reviewerErrMessage]

theorem tfr_exc (env : Nat → Outcome) (fuel : Nat) (st : OrchState) (reviewer : AgentM)
    (hr : get_agent_by_role st.agents "reviewer" = some reviewer)
    (hfail : st.failed.contains reviewer.id = false)
    (hany : st.msgs.any (fun msg => msg.from_id == reviewer.id) = false)
    (henv : env st.ctr = Outcome.exc) :
    trigger_final_review env fuel st = reviewRunState st reviewer := by
  have hf : reviewer.id ∉ st.failed := by simpa using hfail
  simp [trigger_final_review, hr, hf, hany, runAgent, henv, outcomeMessage,
    reviewRunState]

theorem reviewRunState_traceOK (st : OrchState) (reviewer : AgentM)
    (hfail : st.failed.contains reviewer.id = false) :
    TraceOK st (reviewRunState st reviewer) := by
  have hf : reviewer.id ∉ st.failed := by simpa using hfail
  refine ⟨[OEvent.dispatch reviewer.id], by simp [reviewRunState], ?_,
    by simp [applyMarks, reviewRunState]⟩
  simp [traceRespectsFailed, hf]

theorem trigger_final_review_trace (env : Nat → Outcome) (fuel : Nat) (st : OrchState) :
    TraceOK st (trigger_final_review env fuel st) := by
  cases hr : get_agent_by_role st.agents "reviewer" with
  | none => rw [tfr_none env fuel st hr]; exact traceOK_refl st
  | some reviewer =>
    by_cases hfail : st.failed.contains reviewer.id = true
    · rw [tfr_failed env fuel st reviewer hr hfail]
      exact traceOK_refl st
    · have hfail' : st.failed.contains reviewer.id = false := by simpa using hfail
      by_cases hany : st.msgs.any (fun msg => msg.from_id == reviewer.id) = true
      · rw [tfr_already env fuel st reviewer hr hfail' hany]
        exact traceOK_refl st
      · have hany' : st.msgs.any (fun msg => msg.from_id == reviewer.id) = false := by
          simpa using hany
        have hTr1 : TraceOK st (reviewRunState st reviewer) :=
          reviewRunState_traceOK st reviewer hfail'
        have hTr2 : ∀ resp : Message, TraceOK st
            { reviewRunState st reviewer with
              msgs := (reviewRunState st reviewer).msgs ++ [resp] } := by
          intro resp
          obtain ⟨tail, he, hrsp, hf⟩ := hTr1
          exact ⟨tail, he, hrsp, hf⟩
        cases henv : env st.ctr with
        | result c =>
          rw [tfr_result env fuel st reviewer c hr hfail' hany' henv]
          by_cases hemp : (extract_mentions c).isEmpty = true
          · rw [if_pos hemp]
            exact hTr2 _
          · rw [if_neg hemp]
            exact traceOK_trans (hTr2 _) (process_mentions_ok env fuel _ _).1
        | errReturn e =>
          rw [tfr_errReturn env fuel st reviewer e hr hfail' hany' henv]
          exact hTr2 _
        | exc =>
          rw [tfr_exc env fuel st reviewer hr hfail' hany' henv]
          exact hTr1

/-- C1: along every sequence of mention-cascade and final-review steps
(any messages, any agent set, any run outcomes, any recursion depth),
the ghost event trace satisfies the failed-set exclusion property
relative to the incoming failed-set: an agent id that is in the
failed-set at the start, or is added to it by any step
(`OEvent.markFailed`), is never dispatched (`OEvent.dispatch`) at any
later point of the trace — neither by a later cascade round nor by the
final-review step. -/
theorem failed_agents_never_redispatched (env : Nat → Outcome) (fuel : Nat)
    (st : OrchState) (calls : List StepCall) :
    ∃ tail, (runSteps env fuel st calls).events = st.events ++ tail ∧
      traceRespectsFailed st.failed tail = true := by
  have h : ∀ (calls : List StepCall) (st : OrchState),
      TraceOK st (runSteps env fuel st calls) := by
    intro calls
    induction calls with
    | nil => intro st; exact traceOK_refl st
    | cons c rest ih =>
      intro st
      cases c with
      | cascade m =>
        exact traceOK_trans (process_mentions_ok env fuel st m).1 (ih _)
      | finalReview =>
        exact traceOK_trans (trigger_final_review_trace env fuel st) (ih _)
  obtain ⟨tail, he, hrsp, _⟩ := h calls st
  exact ⟨tail, he, hrsp⟩

/-- C2: every agent selected as a cascade target by a round's
eligibility check (`eligibleTargets` is the selection loop of
`_process_mentions`; the loop has no await point, so the statuses it
reads are those at selection time) has status not equal to Working; it
is moreover one of the orchestrated agents and not in the failed-set. -/
theorem cascade_targets_never_working (st : OrchState) (mentions : List String)
    (a : AgentM) (h : a ∈ eligibleTargets st mentions) :
    a.status ≠ AgentStatus.working ∧ a ∈ st.agents ∧
      st.failed.contains a.id = false := by
  obtain ⟨h1, h2, h3⟩ := eligibleTargets_spec st mentions a h
  exact ⟨h1, h3, h2⟩

/-- A two-agent state: an idle backend agent and a working frontend
agent. -/
def twoAgentState : OrchState :=
  { projectId := "p",
    agents :=
      [{ id := "b1", roleId := "backend", displayName := "💻 后端开发" },
       { id := "f1", roleId := "frontend", displayName := "🎨 前端开发",
         status := AgentStatus.working }] }

/-- Witness for `cascade_targets_never_working`: of the two mentioned
agents only the idle backend agent is selected, and it is not
Working. -/
theorem cascade_targets_never_working_witness :
    ({ id := "b1", roleId := "backend", displayName := "💻 后端开发",
        status := AgentStatus.idle } : AgentM) ∈
      eligibleTargets twoAgentState ["backend", "前端开发"] ∧
    ({ id := "b1", roleId := "backend", displayName := "💻 后端开发",
        status := AgentStatus.idle } : AgentM).status ≠ AgentStatus.working := by
  constructor
  · decide
  · exact (cascade_targets_never_working twoAgentState ["backend", "前端开发"] _
      (by decide)).1

theorem filter_secretary_nil {st : OrchState} (hsec : "secretary" ∉ st.agents.map AgentM.id)
    (mtail : List Message) (hfrom : ∀ x ∈ mtail, x.from_id ∈ st.agents.map AgentM.id) :
    mtail.filter (fun x => x.from_id == "secretary") = [] := by
  rw [List.filter_eq_nil_iff]
  intro x hx
  have hmem := hfrom x hx
  simp only [beq_iff_eq]
  intro hxe
  exact hsec (hxe ▸ hmem)


/-- C8: when a reviewer-role agent exists, is not in the failed-set,
and has produced no message, the final-review step appends exactly one
synthetic coordinator message — the secretary trigger, which mentions
the reviewer alias `验收员` — and dispatches the reviewer once in direct
response to it, before any cascade; when moreover the reviewer's own
response carries no mentions (the quiesced scenario of the spec), that
one dispatch is the step's entire event trace, i.e. the reviewer runs
exactly once.  When the reviewer is in the failed-set or has already
produced a message, the step changes nothing: no synthetic message, no
execution.  (`hsec` rules out an orchestrated agent whose id collides
with the synthetic sender id `secretary`.) -/
theorem final_review_triggers_reviewer_exactly_once (env : Nat → Outcome) (fuel : Nat)
    (st : OrchState) (r : AgentM)
    (hr : get_agent_by_role st.agents "reviewer" = some r)
    (hsec : "secretary" ∉ st.agents.map AgentM.id) :
    ((st.failed.contains r.id = false ∧ (∀ m ∈ st.msgs, m.from_id ≠ r.id)) →
      (triggerMessage st.projectId).mentions = ["验收员"] ∧
      (∃ mtail, (trigger_final_review env fuel st).msgs =
          st.msgs ++ triggerMessage st.projectId :: mtail ∧
        ∀ x ∈ mtail, x.from_id ∈ st.agents.map AgentM.id) ∧
      ((trigger_final_review env fuel st).msgs.filter
          (fun x => x.from_id == "secretary")).length =
        (st.msgs.filter (fun x => x.from_id == "secretary")).length + 1 ∧
      (∃ etail, (trigger_final_review env fuel st).events =
          st.events ++ OEvent.dispatch r.id :: etail) ∧
      ((∀ c, env st.ctr = Outcome.result c → extract_mentions c = []) →
        (trigger_final_review env fuel st).events =
          st.events ++ [OEvent.dispatch r.id])) ∧
    ((st.failed.contains r.id = true ∨ ∃ m ∈ st.msgs, m.from_id = r.id) →
      trigger_final_review env fuel st = st) := by
  constructor
  · rintro ⟨hnf, hnm⟩
    have hany : st.msgs.any (fun msg => msg.from_id == r.id) = false := by
      simp only [List.any_eq_false, beq_iff_eq]
      exact hnm
    have hrid : r.id ∈ st.agents.map AgentM.id :=
      List.mem_map_of_mem AgentM.id (get_agent_by_role_mem hr)
    have htm : (triggerMessage st.projectId).from_id = "secretary" := rfl
    have hcount : ∀ mtail : List Message,
        (∀ x ∈ mtail, x.from_id ∈ st.agents.map AgentM.id) →
        ((st.msgs ++ triggerMessage st.projectId :: mtail).filter
            (fun x => x.from_id == "secretary")).length =
          (st.msgs.filter (fun x => x.from_id == "secretary")).length + 1 := by
      intro mtail hfrom
      rw [List.filter_append, List.length_append, List.filter_cons,
        filter_secretary_nil hsec mtail hfrom]
      simp [htm]
    have honly : ∀ x ∈ ([] : List Message), x.from_id ∈ st.agents.map AgentM.id := by
      simp
    cases henv : env st.ctr with
    | result c =>
      rw [tfr_result env fuel st r c hr hnf hany henv]
      have hfromR : ∀ x ∈ [mkAgentMessage st.projectId r c],
          x.from_id ∈ st.agents.map AgentM.id := by
        intro x hx
        rcases List.mem_cons.1 hx with h | h
        · subst h; exact hrid
        · cases h
      by_cases hemp : (extract_mentions c).isEmpty = true
      · rw [if_pos hemp]
        have hmsgs : ({ reviewRunState st r with
            msgs := (reviewRunState st r).msgs
              ++ [mkAgentMessage st.projectId r c] }).msgs =
            st.msgs ++ triggerMessage st.projectId :: [mkAgentMessage st.projectId r c] := by
          simp [reviewRunState]
        refine ⟨rfl, ⟨[mkAgentMessage st.projectId r c], hmsgs, hfromR⟩, ?_, ⟨[], ?_⟩, ?_⟩
        · rw [hmsgs]
          exact hcount [mkAgentMessage st.projectId r c] hfromR
        · simp [reviewRunState]
        · intro _
          simp [reviewRunState]
      · rw [if_neg hemp]
        obtain ⟨⟨tail, he, _, _⟩, hp, haids, ⟨mtail2, hm2, hfrom2⟩⟩ :=
          process_mentions_ok env fuel
            { reviewRunState st r with
              msgs := (reviewRunState st r).msgs ++ [mkAgentMessage st.projectId r c] }
            (mkAgentMessage st.projectId r c)
        have hids : ({ reviewRunState st r with
            msgs := (reviewRunState st r).msgs
              ++ [mkAgentMessage st.projectId r c] }).agents.map AgentM.id =
            st.agents.map AgentM.id := by
          simp [reviewRunState, setAgentStatus_ids]
        have hmsgs : (process_mentions env fuel { reviewRunState st r with
            msgs := (reviewRunState st r).msgs ++ [mkAgentMessage st.projectId r c] }
            (mkAgentMessage st.projectId r c)).msgs =
            st.msgs ++ triggerMessage st.projectId ::
              (mkAgentMessage st.projectId r c :: mtail2) := by
          rw [hm2]
          simp [reviewRunState]
        have hfrom1 : ∀ x ∈ mkAgentMessage st.projectId r c :: mtail2,
            x.from_id ∈ st.agents.map AgentM.id := by
          intro x hx
          rcases List.mem_cons.1 hx with h | h
          · subst h; exact hrid
          · have := hfrom2 x h
            rwa [hids] at this
        refine ⟨rfl, ⟨mkAgentMessage st.projectId r c :: mtail2, hmsgs, hfrom1⟩, ?_, ?_, ?_⟩
        · rw [hmsgs]
          exact hcount _ hfrom1
        · refine ⟨tail, ?_⟩
          rw [he]
          simp [reviewRunState]
        · intro hq
          exact absurd (by rw [hq c rfl]; rfl) hemp
    | errReturn e =>
      rw [tfr_errReturn env fuel st r e hr hnf hany henv]
      have hfromE : ∀ x ∈ [reviewerErrMessage st.projectId r e],
          x.from_id ∈ st.agents.map AgentM.id := by
        intro x hx
        rcases List.mem_cons.1 hx with h | h
        · subst h; exact hrid
        · cases h
      have hmsgs : ({ reviewRunState st r with
          msgs := (reviewRunState st r).msgs ++
            [reviewerErrMessage st.projectId r e] }).msgs =
          st.msgs ++ triggerMessage st.projectId ::
            [reviewerErrMessage st.projectId r e] := by
        simp [reviewRunState]
      refine ⟨rfl, ⟨_, hmsgs, hfromE⟩, ?_, ⟨[], ?_⟩, ?_⟩
      · rw [hmsgs]
        exact hcount _ hfromE
      · simp [reviewRunState]
      · intro _
        simp [reviewRunState]
    | exc =>
      rw [tfr_exc env fuel st r hr hnf hany henv]
      have hmsgs : (reviewRunState st r).msgs =
          st.msgs ++ triggerMessage st.projectId :: [] := by
        simp [reviewRunState]
      refine ⟨rfl, ⟨[], hmsgs, honly⟩, ?_, ⟨[], ?_⟩, ?_⟩
      · rw [hmsgs]
        exact hcount [] honly
      · simp [reviewRunState]
      · intro _
        simp [reviewRunState]
  · rintro (hmem | ⟨m, hm, hfrom⟩)
    · exact tfr_failed env fuel st r hr hmem
    · by_cases hc : st.failed.contains r.id = true
      · exact tfr_failed env fuel st r hr hc
      · have hc' : st.failed.contains r.id = false := by simpa using hc
        have hany : st.msgs.any (fun msg => msg.from_id == r.id) = true := by
          simp only [List.any_eq_true, beq_iff_eq]
          exact ⟨m, hm, hfrom⟩
        exact tfr_already env fuel st r hr hc' hany

/-- A project whose only agent is an untriggered reviewer. -/
def reviewerAgent : AgentM := { id := "r1", roleId := "reviewer", displayName := "✅ 验收员" }

def reviewSt : OrchState := { projectId := "p", agents := [reviewerAgent] }

/-- An outcome oracle whose reviewer response mentions nobody. -/
def quietEnv : Nat → Outcome := fun _ => Outcome.result "验收通过，所有产出物可用。"

/-- Witness for `final_review_triggers_reviewer_exactly_once` on the
concrete one-reviewer project with a mention-free reviewer response. -/
theorem final_review_triggers_reviewer_exactly_once_witness :
    (triggerMessage reviewSt.projectId).mentions = ["验收员"] ∧
    (∃ mtail, (trigger_final_review quietEnv 5 reviewSt).msgs =
        reviewSt.msgs ++ triggerMessage reviewSt.projectId :: mtail ∧
      ∀ x ∈ mtail, x.from_id ∈ reviewSt.agents.map AgentM.id) ∧
    ((trigger_final_review quietEnv 5 reviewSt).msgs.filter
        (fun x => x.from_id == "secretary")).length =
      (reviewSt.msgs.filter (fun x => x.from_id == "secretary")).length + 1 ∧
    (∃ etail, (trigger_final_review quietEnv 5 reviewSt).events =
        reviewSt.events ++ OEvent.dispatch reviewerAgent.id :: etail) ∧
    ((∀ c, quietEnv reviewSt.ctr = Outcome.result c → extract_mentions c = []) →
      (trigger_final_review quietEnv 5 reviewSt).events =
        reviewSt.events ++ [OEvent.dispatch reviewerAgent.id]) :=
  (final_review_triggers_reviewer_exactly_once quietEnv 5 reviewSt reviewerAgent
    (by decide) (by decide)).1 ⟨by decide, by decide⟩
